import Mathlib

/-!
# time-based-kv: a time-versioned key-value store

Shallow embedding of `src/main.go` and proofs about it.

Modelling decisions, each read off the source:

* `time.Time` is an instant on a discrete time line, a natural number of clock
  ticks. The two things the program does with a timestamp are to use it as a
  map key (`timeIndex[stamp]`) and to compare it (`stamp.After`); both are
  taken over that instant.
* `time.Now()` is the one input the program takes from its environment. It is
  read exactly once per `Set` call (only the branch that stores the value reads
  it), so `Set` takes the reading as the argument `now`. No assumption on the
  readings is built in; theorems that need a monotonic clock say so.
* Go maps are finite maps with unique keys and no order: `Finmap`. The maps
  of a store are the non-nil maps that `New` and `newTimeStore` make, the only
  places where the source builds a `TimeMap` or a `timeStore`.
* `*value` and `*timeStore` are pointers to records that are never written
  after their creation (`value`) or that are owned by one key (`timeStore`,
  made by `newTimeStore` for that key only), so they are modelled by value.
* A read returns `(result, error)`; a slice index out of range panics. The
  three outcomes are the constructors of `Result`.
* What a method does to the memory cannot be read off a function on values,
  so the three methods are embedded a second time on an explicit memory
  (`Mem`, `Op`), statement by statement, with pointers as addresses and slices
  as headers on shared backing arrays. `Mem_run_represents` shows that the
  memory built by any sequence of `Set` calls holds the store built by the
  same calls, and `Mem_Get_agrees` and `Mem_GetBefore_agrees` that the reads
  of the two embeddings return the same.
-/

namespace TimeBasedKV

/-- An instant, as read from the clock: the model of `time.Time`. -/
abbrev Time := Nat

/-- The method `Time.After` of the standard library: `s.After t` reports
whether the instant `s` is after `t`. -/
def After (s t : Time) : Bool := decide (t < s)

/-- The struct `value`: the object stored, with the timestamp of insertion. -/
structure value where
  stamp : Time
  val : String
deriving DecidableEq, Repr

/-- The struct `timeStore`: the underlying store for each key. -/
structure timeStore where
  timeIndex : Finmap (fun _ : Time => value)
  values : List value
deriving DecidableEq

/-- The struct `TimeMap`: a key and all values added over time for that key. -/
structure TimeMap where
  times : Finmap (fun _ : String => timeStore)
deriving DecidableEq

/-- The two errors the program builds with `fmt.Errorf`:
`"key [%s] does not exist"` and `"key [%s] had no timestamp [%s]"`. -/
inductive Error where
  | keyNotFound (key : String)
  | timestampNotFound (key : String) (stamp : Time)
deriving DecidableEq, Repr

/-- Outcome of a read: a value with a nil error, a nil value with an error, or
a run-time panic (index or slice bound out of range). -/
inductive Result (α : Type) where
  | ok (a : α)
  | err (e : Error)
  | panic
deriving DecidableEq, Repr

/-- The function `New`: a new `TimeMap` with an empty map. -/
def New : TimeMap := { times := ∅ }

/-- The function `newTimeStore`: the store of a new key, with an empty index
and an empty slice. -/
def newTimeStore : timeStore := { timeIndex := ∅, values := [] }

/-- The method `getTimeStore`. -/
def TimeMap.getTimeStore (tm : TimeMap) (key : String) : Except Error timeStore :=
  match tm.times.lookup key with
  | some ts => .ok ts
  | none => .error (.keyNotFound key)

/-- The method `Set`. When the key exists the value is stamped with the clock
reading `now`, appended to `values` and written to `timeIndex[stamp]`.
Otherwise a new store is created for the key and the method calls itself. -/
def TimeMap.Set (tm : TimeMap) (key data : String) (now : Time) : TimeMap :=
  match h : tm.times.lookup key with
  | some ts =>
    let stamp := now
    let v : value := { stamp := stamp, val := data }
    { times := tm.times.insert key
        { values := ts.values ++ [v], timeIndex := ts.timeIndex.insert stamp v } }
  | none =>
    TimeMap.Set { times := tm.times.insert key newTimeStore } key data now
termination_by (if tm.times.lookup key = none then 1 else 0)
decreasing_by
  simp [h, Finmap.lookup_insert]

/-- The loop of the standard library's `sort.Search`, on the bounds `i` and
`j`: `h` is the midpoint `int(uint(i+j) >> 1)`; when `f h` is false the lower
bound moves to `h + 1`, otherwise the upper bound moves to `h`. The predicate
may panic (`none`), which ends the search. -/
def searchLoop (f : Nat → Option Bool) (i j : Nat) : Option Nat :=
  if i < j then
    let h := (i + j) / 2
    match f h with
    | none => none
    | some false => searchLoop f (h + 1) j
    | some true => searchLoop f i h
  else some i
termination_by j - i
decreasing_by
  all_goals simp_wf
  all_goals omega

/-- The standard library's `sort.Search(n, f)`: the loop started on `0, n`. -/
def Search (n : Nat) (f : Nat → Option Bool) : Option Nat :=
  searchLoop f 0 n

/-- The method `Get`, with the variadic `stamp` as a list. Without a stamp the
element `values[len(values)-1]` is returned, which panics on an empty slice;
with one, `stamp[0]` is looked up in `timeIndex`. -/
def TimeMap.Get (tm : TimeMap) (key : String) (stamp : List Time) : Result value :=
  match tm.getTimeStore key with
  | .error e => .err e
  | .ok ts =>
    match stamp with
    | [] =>
      match ts.values.getLast? with
      | some v => .ok v
      | none => .panic
    | lookup :: _ =>
      match ts.timeIndex.lookup lookup with
      | some v => .ok v
      | none => .err (.timestampNotFound key lookup)

/-- The method `GetBefore`: `sort.Search` over `values` with the predicate
`values[i].stamp.After(stamp)`, then the slice `values[:idx]`. Reading
`values[i]` out of range panics, and so does a slice bound beyond the
length. -/
def TimeMap.GetBefore (tm : TimeMap) (key : String) (stamp : Time) : Result (List value) :=
  match tm.getTimeStore key with
  | .error e => .err e
  | .ok ts =>
    match Search ts.values.length
        (fun i => ts.values[i]?.map (fun v => After v.stamp stamp)) with
    | none => .panic
    | some idx =>
      if idx ≤ ts.values.length then .ok (ts.values.take idx) else .panic

/-- One call `tm.Set(key, data)` together with the clock reading `now` that
the call takes from `time.Now()`. -/
structure SetCall where
  key : String
  data : String
  now : Time
deriving DecidableEq, Repr

/-- The record that a `Set` call creates. -/
def SetCall.record (c : SetCall) : value := { stamp := c.now, val := c.data }

/-- The store reached from `New()` by a sequence of `Set` calls, in order. -/
def run (ops : List SetCall) : TimeMap :=
  ops.foldl (fun tm c => tm.Set c.key c.data c.now) New

/-- The records created by the `Set` calls on `key`, in call order. -/
def history (ops : List SetCall) (key : String) : List value :=
  (ops.filter (fun c => c.key = key)).map SetCall.record

/-- The index that results from writing the records of a sequence in order,
each under its own timestamp. -/
def indexOf (vs : List value) : Finmap (fun _ : Time => value) :=
  vs.foldl (fun m v => m.insert v.stamp v) ∅

/-- A store after one more record: what the key-exists branch of `Set` does to
the store of the key. -/
def timeStore.push (ts : timeStore) (v : value) : timeStore :=
  { values := ts.values ++ [v], timeIndex := ts.timeIndex.insert v.stamp v }

/-- The store that holds exactly the records `vs`, written in order. -/
def storeOf (vs : List value) : timeStore := { timeIndex := indexOf vs, values := vs }

/-- A call of one of the three methods of a store; a `Set` call comes with the
clock reading it takes. -/
inductive Call where
  | set (key data : String) (now : Time)
  | get (key : String) (stamp : List Time)
  | getBefore (key : String) (stamp : Time)
deriving DecidableEq, Repr

/-- What a call returns: nothing (`Set`), a value or an error (`Get`), a slice
of values or an error (`GetBefore`). -/
inductive Reply where
  | unit
  | value (r : Result value)
  | values (r : Result (List value))
deriving DecidableEq, Repr

/-- A method call as a state transformer: the store after the call and what
the call returns. The bodies of `Get` and `GetBefore` hold no assignment to
`tm.times`, to a `values` slice or to a `timeIndex` map (they read the map,
index the slice and reslice it), so the store after them is the store they
were called on. -/
def TimeMap.exec (tm : TimeMap) : Call → TimeMap × Reply
  | .set key data now => (tm.Set key data now, .unit)
  | .get key stamp => (tm, .value (tm.Get key stamp))
  | .getBefore key stamp => (tm, .values (tm.GetBefore key stamp))

/-- The store after a sequence of calls, in order. -/
def TimeMap.execAll (tm : TimeMap) (cs : List Call) : TimeMap :=
  cs.foldl (fun s c => (s.exec c).1) tm

/-- The linear scan that the binary search of `GetBefore` is compared with. It
follows the words of the claim, not the source: the least index whose record
has a timestamp after `t`, and the length of the sequence when there is
none. -/
def leastIndexAfter (vs : List value) (t : Time) : Nat :=
  match vs with
  | [] => 0
  | v :: rest => if After v.stamp t then 0 else leastIndexAfter rest t + 1

/-- The records of a sequence whose timestamp is not after `t`, in order; from
the words of the claim. -/
def notAfter (vs : List value) (t : Time) : List value :=
  vs.filter (fun v => !After v.stamp t)

/-- The method `Set` once more, returning beside the store the number of
calls that `Set` makes to itself on the way: the key-exists branch makes none,
the new-key branch makes one and those of the call it makes. -/
def TimeMap.SetCounted (tm : TimeMap) (key data : String) (now : Time) : TimeMap × Nat :=
  match h : tm.times.lookup key with
  | some ts =>
    let stamp := now
    let v : value := { stamp := stamp, val := data }
    ({ times := tm.times.insert key
        { values := ts.values ++ [v], timeIndex := ts.timeIndex.insert stamp v } }, 0)
  | none =>
    let r := TimeMap.SetCounted { times := tm.times.insert key newTimeStore } key data now
    (r.1, r.2 + 1)
termination_by (if tm.times.lookup key = none then 1 else 0)
decreasing_by
  simp [h, Finmap.lookup_insert]

/-- The indices at which the loop of `sort.Search` calls the predicate, in
order: the same loop as `searchLoop`, collecting each midpoint `h` at which
`f(h)` is evaluated. -/
def searchProbes (f : Nat → Option Bool) (i j : Nat) : List Nat :=
  if i < j then
    let h := (i + j) / 2
    match f h with
    | none => [h]
    | some false => h :: searchProbes f (h + 1) j
    | some true => h :: searchProbes f i h
  else []
termination_by j - i
decreasing_by
  all_goals simp_wf
  all_goals omega

/-! ## The program on an explicit memory

The same three methods once more, this time on the memory the Go program
works on: pointers are addresses, a slice is a header (backing array, length,
capacity) and the objects live in the memory. Every statement of a method body
is one memory operation in `Op`, so what a method does to the memory is read
off its body. -/

/-- A pointer, `*value` or `*timeStore` or to a backing array: the address of
an object, or nil. -/
abbrev Ptr := Option Nat

/-- A slice header of type `[]*value`: backing array, length and capacity.
Every slice of the program starts at the first element of its array (`append`
and `values[:idx]` keep the start). The empty slice `[]*value{}` has capacity
0, so no slot of an array is ever read or written through it; its array
pointer is nil here. -/
structure Slice where
  array : Ptr
  len : Nat
  cap : Nat
deriving DecidableEq, Repr

/-- A `timeStore` object in memory: the map `timeIndex`, whose entries are
pointers to values, and the slice header `values`. -/
structure StoreObj where
  timeIndex : Finmap (fun _ : Time => Ptr)
  values : Slice
deriving DecidableEq

/-- The memory of a program that holds one `TimeMap`: the map `tm.times`, whose
entries are pointers to `timeStore` objects, and the objects by address: the
`timeStore` objects, the backing arrays (one slot per unit of capacity, nil
where nothing was stored) and the `value` objects. -/
structure Mem where
  times : Finmap (fun _ : String => Ptr)
  stores : List StoreObj
  arrays : List (List Ptr)
  cells : List value
deriving DecidableEq

/-- The `timeStore` object a pointer points to, if any. -/
def Mem.store (m : Mem) (p : Ptr) : Option StoreObj :=
  match p with
  | some a => m.stores[a]?
  | none => none

/-- The backing array a pointer points to, if any. -/
def Mem.array (m : Mem) (p : Ptr) : Option (List Ptr) :=
  match p with
  | some a => m.arrays[a]?
  | none => none

/-- The `value` object a pointer points to, if any. -/
def Mem.cell (m : Mem) (p : Ptr) : Option value :=
  match p with
  | some a => m.cells[a]?
  | none => none

/-- A statement or expression run on the memory: its result, `none` when it
panics, and the memory afterwards. -/
def Op (α : Type) : Type := Mem → Option α × Mem

/-- An expression that touches no memory. -/
def Op.pure {α : Type} (a : α) : Op α := fun m => (some a, m)

/-- Sequencing: the second part runs on the memory the first part leaves; a
panic in the first part ends the run. -/
def Op.bind {α β : Type} (x : Op α) (f : α → Op β) : Op β := fun m =>
  match x m with
  | (some a, m') => f a m'
  | (none, m') => (none, m')

/-- The map read `ts, ok := tm.times[key]`. -/
def loadKey (key : String) : Op (Option Ptr) := fun m => (some (m.times.lookup key), m)

/-- The field read `ts.values` through a `*timeStore`; a nil pointer
panics. -/
def loadValues (ts : Ptr) : Op Slice := fun m => ((m.store ts).map (fun o => o.values), m)

/-- The map read `v, ok := ts.timeIndex[lookup]` through a `*timeStore`. -/
def loadIndexEntry (ts : Ptr) (t : Time) : Op (Option Ptr) := fun m =>
  ((m.store ts).map (fun o => o.timeIndex.lookup t), m)

/-- The index expression `s[i]`: it panics when `i` is out of range, and
otherwise reads slot `i` of the backing array. -/
def sliceIndex (s : Slice) (i : Int) : Op Ptr := fun m =>
  (if 0 ≤ i ∧ i < s.len then (m.array s.array).bind (fun arr => arr[i.toNat]?) else none, m)

/-- The field read `v.stamp` through a `*value`; a nil pointer panics. -/
def loadStamp (v : Ptr) : Op Time := fun m => ((m.cell v).map (fun c => c.stamp), m)

/-- The slice expression `s[:idx]`: it panics when `idx` exceeds the capacity,
and otherwise gives a header on the same backing array with length `idx`. -/
def reslice (s : Slice) (idx : Nat) : Op Slice := fun m =>
  (if idx ≤ s.cap then some { s with len := idx } else none, m)

/-- The allocation `&value{stamp: stamp, val: data}`. -/
def allocValue (v : value) : Op Ptr := fun m =>
  (some (some m.cells.length), { m with cells := m.cells ++ [v] })

/-- The built-in `append(s, v)` for one element. With room in the capacity the
element is written into the backing array at index `len`; without, a new
array is allocated, the elements are copied and the element is written after
them. The language leaves the new capacity to the implementation, so it is
given by the parameter `grow`, applied to the old capacity, and is at least
the length that is needed. -/
def appendValue (grow : Nat → Nat) (s : Slice) (v : Ptr) : Op Slice := fun m =>
  if s.len < s.cap then
    match s.array with
    | some a =>
      match m.arrays[a]? with
      | some arr =>
        (some { s with len := s.len + 1 },
          { m with arrays := m.arrays.set a (arr.set s.len v) })
      | none => (none, m)
    | none => (none, m)
  else
    let newcap := max (grow s.cap) (s.len + 1)
    let old := ((m.array s.array).getD []).take s.len
    (some { array := some m.arrays.length, len := s.len + 1, cap := newcap },
      { m with arrays := m.arrays ++ [old ++ [v] ++ List.replicate (newcap - (s.len + 1)) none] })

/-- The field write `timeStore.values = s` through a `*timeStore`. -/
def storeValues (ts : Ptr) (s : Slice) : Op Unit := fun m =>
  match ts with
  | some a =>
    match m.stores[a]? with
    | some o => (some (), { m with stores := m.stores.set a { o with values := s } })
    | none => (none, m)
  | none => (none, m)

/-- The map write `timeStore.timeIndex[stamp] = v` through a `*timeStore`. -/
def storeIndexEntry (ts : Ptr) (t : Time) (v : Ptr) : Op Unit := fun m =>
  match ts with
  | some a =>
    match m.stores[a]? with
    | some o =>
      (some (), { m with stores := m.stores.set a { o with timeIndex := o.timeIndex.insert t v } })
    | none => (none, m)
  | none => (none, m)

/-- The function `New` on the memory: an empty map and no object. -/
def Mem.New : Mem := { times := ∅, stores := [], arrays := [], cells := [] }

/-- The method `Set` on the memory. Known key: allocate the value, append its
pointer to `values`, write it to `timeIndex[stamp]`. New key:
`tm.times[key] = newTimeStore()`, which allocates a `timeStore` with an empty
map and the empty slice `[]*value{}`, then the method calls itself. -/
def Mem.Set (grow : Nat → Nat) (key data : String) (now : Time) (m : Mem) : Option Unit × Mem :=
  match hk : m.times.lookup key with
  | some ts =>
    ((allocValue { stamp := now, val := data }).bind fun v =>
      (loadValues ts).bind fun vals =>
      (appendValue grow vals v).bind fun vals' =>
      (storeValues ts vals').bind fun _ =>
      storeIndexEntry ts now v) m
  | none =>
    Mem.Set grow key data now
      { m with
        times := m.times.insert key (some m.stores.length)
        stores := m.stores ++ [{ timeIndex := ∅, values := { array := none, len := 0, cap := 0 } }] }
termination_by (if m.times.lookup key = none then 1 else 0)
decreasing_by
  simp [hk, Finmap.lookup_insert]

/-- The loop of `sort.Search` with a predicate that reads the memory: the loop
of `searchLoop`, each call of `f` run on the memory the previous ones left. -/
def searchLoopM (f : Nat → Op Bool) (i j : Nat) : Op Nat :=
  if i < j then
    (f ((i + j) / 2)).bind fun b =>
      if !b then searchLoopM f ((i + j) / 2 + 1) j else searchLoopM f i ((i + j) / 2)
  else Op.pure i
termination_by j - i
decreasing_by
  all_goals simp_wf
  all_goals omega

/-- The standard library's `sort.Search(n, f)` on the memory. -/
def SearchM (n : Nat) (f : Nat → Op Bool) : Op Nat := searchLoopM f 0 n

/-- The method `getTimeStore` on the memory. -/
def Mem.getTimeStore (key : String) : Op (Except Error Ptr) :=
  (loadKey key).bind fun r =>
    match r with
    | some ts => Op.pure (.ok ts)
    | none => Op.pure (.error (.keyNotFound key))

/-- The method `Get` on the memory; it returns the pointer it finds. Without a
stamp, `ts.values` is read twice, for `len(ts.values)` and for the index
expression. -/
def Mem.Get (key : String) (stamp : List Time) : Op (Except Error Ptr) :=
  (Mem.getTimeStore key).bind fun r =>
    match r with
    | .error e => Op.pure (.error e)
    | .ok ts =>
      match stamp with
      | [] =>
        (loadValues ts).bind fun vals =>
        (loadValues ts).bind fun vs =>
        (sliceIndex vs ((vals.len : Int) - 1)).bind fun v =>
        Op.pure (.ok v)
      | lookup :: _ =>
        (loadIndexEntry ts lookup).bind fun r =>
          match r with
          | some v => Op.pure (.ok v)
          | none => Op.pure (.error (.timestampNotFound key lookup))

/-- The method `GetBefore` on the memory; it returns the header of the slice
`values[:idx]`, which shares the backing array of `values`. -/
def Mem.GetBefore (key : String) (stamp : Time) : Op (Except Error Slice) :=
  (Mem.getTimeStore key).bind fun r =>
    match r with
    | .error e => Op.pure (.error e)
    | .ok ts =>
      (loadValues ts).bind fun vals =>
      (SearchM vals.len (fun i =>
        (loadValues ts).bind fun vs =>
        (sliceIndex vs (i : Int)).bind fun v =>
        (loadStamp v).bind fun s =>
        Op.pure (After s stamp))).bind fun idx =>
      (loadValues ts).bind fun vs =>
      (reslice vs idx).bind fun r =>
      Op.pure (.ok r)

/-- A read call: `Get` or `GetBefore` with its arguments. -/
inductive Read where
  | get (key : String) (stamp : List Time)
  | getBefore (key : String) (stamp : Time)
deriving DecidableEq, Repr

/-- The memory that a read call leaves. -/
def Read.after (r : Read) (m : Mem) : Mem :=
  match r with
  | .get key stamp => (Mem.Get key stamp m).2
  | .getBefore key stamp => (Mem.GetBefore key stamp m).2

/-- The memory after a sequence of read calls, in order. -/
def Mem.afterReads (m : Mem) (rs : List Read) : Mem :=
  rs.foldl (fun s r => r.after s) m

/-- The memory reached from `New()` by a sequence of `Set` calls, in order. -/
def Mem.run (grow : Nat → Nat) (ops : List SetCall) : Mem :=
  ops.foldl (fun m c => (Mem.Set grow c.key c.data c.now m).2) Mem.New

/-- The slice `s` holds the records `vs` in the memory `m`: its length is
theirs and slot `i` of its backing array points to the `i`-th record. -/
def Mem.SliceHolds (m : Mem) (s : Slice) (vs : List value) : Prop :=
  s.len = vs.length ∧
  ∀ (i : Nat) (v : value), vs[i]? = some v →
    ∃ (arr : List Ptr) (p : Ptr),
      m.array s.array = some arr ∧ arr[i]? = some p ∧ m.cell p = some v

/-- The `timeStore` object `o` holds the store `ts` in the memory `m`: its
slice holds the sequence, within its capacity, and its map has an entry
exactly where the index has one, pointing to the same record. -/
def Mem.StoreHolds (m : Mem) (o : StoreObj) (ts : timeStore) : Prop :=
  m.SliceHolds o.values ts.values ∧ o.values.len ≤ o.values.cap ∧
  ∀ t, (o.timeIndex.lookup t = none ∧ ts.timeIndex.lookup t = none) ∨
    ∃ p v, o.timeIndex.lookup t = some p ∧ ts.timeIndex.lookup t = some v ∧
      m.cell p = some v

/-- The memory `m` holds the store `tm`: the two maps know the same keys and
the object behind each pointer holds the store of the key. -/
def Mem.Represents (m : Mem) (tm : TimeMap) : Prop :=
  ∀ key, (m.times.lookup key = none ∧ tm.times.lookup key = none) ∨
    ∃ p o ts, m.times.lookup key = some p ∧ m.store p = some o ∧
      tm.times.lookup key = some ts ∧ m.StoreHolds o ts

/-- A result on the memory against a result on the store: both panic, or both
fail with the same error, or both succeed with related values. -/
def ResultHolds {α β : Type} (rel : α → β → Prop) :
    Option (Except Error α) → Result β → Prop
  | none, .panic => True
  | some (.error e), .err e' => e = e'
  | some (.ok a), .ok b => rel a b
  | _, _ => False

/-- A growth policy for `append`: the capacity doubles (and a slice without
capacity gets capacity 1). -/
def doubling (cap : Nat) : Nat := 2 * cap

/-- Four `Set` calls on two keys, used as a worked example. -/
def demoCalls : List SetCall :=
  [⟨"dog", "woof", 1⟩, ⟨"dog", "bark", 2⟩, ⟨"cat", "hiss", 2⟩, ⟨"dog", "sigh", 4⟩]

/-- The memory after `demoCalls` under the doubling policy, written out: two
`timeStore` objects, four `value` objects, and the four backing arrays that
`append` allocated, of which the last one of `"dog"` (capacity 4, three
elements) and the one of `"cat"` are in use. -/
def demoMem : Mem :=
  { times :=
      Finmap.insert "cat" (some 1 : Ptr)
        (Finmap.insert "dog" (some 0 : Ptr) (∅ : Finmap (fun _ : String => Ptr)))
    stores :=
      [{ timeIndex :=
          Finmap.insert 4 (some 3 : Ptr)
            (Finmap.insert 2 (some 1 : Ptr)
              (Finmap.insert 1 (some 0 : Ptr) (∅ : Finmap (fun _ : Time => Ptr))))
         values := { array := some 3, len := 3, cap := 4 } },
       { timeIndex := Finmap.insert 2 (some 2 : Ptr) (∅ : Finmap (fun _ : Time => Ptr))
         values := { array := some 2, len := 1, cap := 1 } }]
    arrays := [[some 0], [some 0, some 1], [some 2], [some 0, some 1, some 3, none]]
    cells := [⟨1, "woof"⟩, ⟨2, "bark"⟩, ⟨2, "hiss"⟩, ⟨4, "sigh"⟩] }

/-- The shape of a memory that the program builds: distinct keys point to
distinct `timeStore` objects, the slice of every key either has no capacity
and no array or has a backing array with one slot per unit of capacity, and
no two keys share a backing array. -/
def Mem.WellFormed (m : Mem) : Prop :=
  (∀ k1 k2 p, m.times.lookup k1 = some p → m.times.lookup k2 = some p → k1 = k2) ∧
  (∀ k p o, m.times.lookup k = some p → m.store p = some o →
    (o.values.array = none ∧ o.values.cap = 0) ∨
      ∃ (b : Nat) (arr : List Ptr),
        o.values.array = some b ∧ m.arrays[b]? = some arr ∧ arr.length = o.values.cap) ∧
  (∀ k1 k2 p1 p2 o1 o2 (b : Nat), m.times.lookup k1 = some p1 → m.store p1 = some o1 →
    m.times.lookup k2 = some p2 → m.store p2 = some o2 →
    o1.values.array = some b → o2.values.array = some b → k1 = k2)

/-- An operation that leaves every memory as it finds it. -/
def Op.ReadOnly {α : Type} (x : Op α) : Prop := ∀ m, (x m).2 = m

/-! ## The effect of `Set` -/

theorem Set_of_some (tm : TimeMap) (key data : String) (now : Time) (ts : timeStore)
    (h : tm.times.lookup key = some ts) :
    tm.Set key data now = { times := tm.times.insert key (ts.push ⟨now, data⟩) } := by
  rw [TimeMap.Set]
  split
  · rename_i ts' h'
    rw [h] at h'
    cases h'
    rfl
  · rename_i h'
    rw [h] at h'
    cases h'

theorem Set_of_none (tm : TimeMap) (key data : String) (now : Time)
    (h : tm.times.lookup key = none) :
    tm.Set key data now =
      TimeMap.Set { times := tm.times.insert key newTimeStore } key data now := by
  rw [TimeMap.Set]
  split
  · rename_i ts' h'
    rw [h] at h'
    cases h'
  · rfl

/-- Closed form of `Set`: the store of the key, or a new one, gets one more
record. -/
theorem Set_eq (tm : TimeMap) (key data : String) (now : Time) :
    tm.Set key data now =
      { times := tm.times.insert key
          (((tm.times.lookup key).getD newTimeStore).push ⟨now, data⟩) } := by
  cases h : tm.times.lookup key with
  | some ts => simp [Set_of_some tm key data now ts h]
  | none =>
    rw [Set_of_none tm key data now h,
      Set_of_some { times := tm.times.insert key newTimeStore } key data now newTimeStore
        (Finmap.lookup_insert _)]
    simp [Finmap.insert_insert]

theorem lookup_Set_self (tm : TimeMap) (key data : String) (now : Time) :
    (tm.Set key data now).times.lookup key =
      some (((tm.times.lookup key).getD newTimeStore).push ⟨now, data⟩) := by
  rw [Set_eq]
  exact Finmap.lookup_insert _

theorem lookup_Set_of_ne (tm : TimeMap) (key data : String) (now : Time) (k : String)
    (h : k ≠ key) :
    (tm.Set key data now).times.lookup k = tm.times.lookup k := by
  rw [Set_eq]
  exact Finmap.lookup_insert_of_ne _ h

/-! ## Reachable stores -/

theorem run_nil : run [] = New := rfl

theorem run_snoc (ops : List SetCall) (c : SetCall) :
    run (ops ++ [c]) = (run ops).Set c.key c.data c.now := by
  simp [run, List.foldl_append]

theorem history_nil (k : String) : history [] k = [] := rfl

theorem history_append (xs ys : List SetCall) (k : String) :
    history (xs ++ ys) k = history xs k ++ history ys k := by
  simp [history]

theorem history_cons_self (c : SetCall) (ys : List SetCall) :
    history (c :: ys) c.key = c.record :: history ys c.key := by
  simp [history]

theorem history_cons_of_ne (c : SetCall) (ys : List SetCall) (k : String) (h : c.key ≠ k) :
    history (c :: ys) k = history ys k := by
  simp [history, h]

theorem mem_history {ops : List SetCall} {k : String} {v : value} :
    v ∈ history ops k ↔ ∃ c ∈ ops, c.key = k ∧ c.record = v := by
  simp [history, and_assoc]

theorem history_eq_nil {ops : List SetCall} {k : String} :
    history ops k = [] ↔ ∀ c ∈ ops, c.key ≠ k := by
  simp [history, List.filter_eq_nil_iff]

theorem history_ne_nil {ops : List SetCall} {k : String} :
    history ops k ≠ [] ↔ ∃ c ∈ ops, c.key = k := by
  rw [Ne, history_eq_nil]
  push_neg
  rfl

theorem indexOf_nil : indexOf [] = ∅ := rfl

theorem indexOf_snoc (vs : List value) (v : value) :
    indexOf (vs ++ [v]) = (indexOf vs).insert v.stamp v := by
  simp [indexOf, List.foldl_append]

theorem storeOf_nil : storeOf [] = newTimeStore := rfl

theorem storeOf_push (vs : List value) (v : value) :
    (storeOf vs).push v = storeOf (vs ++ [v]) := by
  simp [storeOf, timeStore.push, indexOf_snoc]

/-- The store of every key of a reachable store holds the records of the `Set`
calls on that key, and a key is present exactly when it has been set. -/
theorem lookup_run (ops : List SetCall) (k : String) :
    (run ops).times.lookup k =
      if history ops k = [] then none else some (storeOf (history ops k)) := by
  induction ops using List.reverseRecOn with
  | nil => simp [run_nil, New, history_nil]
  | append_singleton ops c ih =>
    rw [run_snoc, history_append]
    by_cases hk : c.key = k
    · subst hk
      rw [lookup_Set_self, ih, history_cons_self, history_nil]
      by_cases hn : history ops c.key = []
      · simp [hn, ← storeOf_nil, storeOf_push, SetCall.record]
      · simp [hn, storeOf_push, SetCall.record]
    · rw [lookup_Set_of_ne _ _ _ _ _ (Ne.symm hk), ih, history_cons_of_ne _ _ _ hk,
        history_nil, List.append_nil]

theorem lookup_run_of_set {ops : List SetCall} {k : String} (h : ∃ c ∈ ops, c.key = k) :
    (run ops).times.lookup k = some (storeOf (history ops k)) := by
  rw [lookup_run, if_neg (history_ne_nil.2 h)]

theorem lookup_run_of_mem (ops : List SetCall) (k : String) (c : SetCall) (hc : c ∈ ops)
    (hk : c.key = k) : (run ops).times.lookup k = some (storeOf (history ops k)) :=
  lookup_run_of_set ⟨c, hc, hk⟩

theorem lookup_run_of_not_set {ops : List SetCall} {k : String} (h : ∀ c ∈ ops, c.key ≠ k) :
    (run ops).times.lookup k = none := by
  rw [lookup_run, if_pos (history_eq_nil.2 h)]

theorem lookup_run_eq_some {ops : List SetCall} {k : String} {ts : timeStore}
    (h : (run ops).times.lookup k = some ts) :
    (∃ c ∈ ops, c.key = k) ∧ ts = storeOf (history ops k) := by
  rw [lookup_run] at h
  by_cases hn : history ops k = []
  · simp [hn] at h
  · rw [if_neg hn] at h
    exact ⟨history_ne_nil.1 hn, (Option.some.inj h).symm⟩

/-! ## The index of a sequence of records -/

theorem lookup_indexOf_snoc (vs : List value) (v : value) (t : Time) :
    (indexOf (vs ++ [v])).lookup t =
      if t = v.stamp then some v else (indexOf vs).lookup t := by
  rw [indexOf_snoc]
  by_cases h : t = v.stamp
  · subst h
    simp [Finmap.lookup_insert]
  · simp [h, Finmap.lookup_insert_of_ne _ h]

/-- An entry of the index is a record of the sequence, under its own
timestamp. -/
theorem mem_of_lookup_indexOf {vs : List value} {t : Time} {v : value}
    (h : (indexOf vs).lookup t = some v) : v ∈ vs ∧ v.stamp = t := by
  induction vs using List.reverseRecOn with
  | nil => simp [indexOf_nil] at h
  | append_singleton vs w ih =>
    rw [lookup_indexOf_snoc] at h
    by_cases ht : t = w.stamp
    · rw [if_pos ht] at h
      cases h
      exact ⟨by simp, ht.symm⟩
    · rw [if_neg ht] at h
      exact ⟨List.mem_append_left _ (ih h).1, (ih h).2⟩

/-- The index has no entry for a timestamp exactly when no record of the
sequence carries it. -/
theorem lookup_indexOf_eq_none {vs : List value} {t : Time} :
    (indexOf vs).lookup t = none ↔ ∀ v ∈ vs, v.stamp ≠ t := by
  induction vs using List.reverseRecOn with
  | nil => simp [indexOf_nil]
  | append_singleton vs w ih =>
    rw [lookup_indexOf_snoc]
    by_cases ht : t = w.stamp
    · rw [if_pos ht]
      constructor
      · intro h
        cases h
      · intro h
        exact absurd ht.symm (h w (by simp))
    · rw [if_neg ht, ih]
      constructor
      · intro h v hv
        rcases List.mem_append.1 hv with hv | hv
        · exact h v hv
        · rw [List.mem_singleton.1 hv]
          exact Ne.symm ht
      · intro h v hv
        exact h v (List.mem_append_left _ hv)

/-- The index maps a timestamp to the last record of the sequence that
carries it. -/
theorem lookup_indexOf_last (pre post : List value) (v : value)
    (h : ∀ w ∈ post, w.stamp ≠ v.stamp) :
    (indexOf (pre ++ v :: post)).lookup v.stamp = some v := by
  induction post using List.reverseRecOn with
  | nil => rw [lookup_indexOf_snoc, if_pos rfl]
  | append_singleton post w ih =>
    have hw : v.stamp ≠ w.stamp := Ne.symm (h w (by simp))
    have : pre ++ v :: (post ++ [w]) = (pre ++ v :: post) ++ [w] := by simp
    rw [this, lookup_indexOf_snoc, if_neg hw]
    exact ih (fun x hx => h x (List.mem_append_left _ hx))

/-! ## The binary search -/

theorem searchLoop_of_not_lt (f : Nat → Option Bool) (i j : Nat) (h : ¬ i < j) :
    searchLoop f i j = some i := by
  rw [searchLoop, if_neg h]

theorem searchLoop_of_none (f : Nat → Option Bool) (i j : Nat) (h : i < j)
    (hf : f ((i + j) / 2) = none) : searchLoop f i j = none := by
  rw [searchLoop, if_pos h]
  simp only [hf]

theorem searchLoop_of_false (f : Nat → Option Bool) (i j : Nat) (h : i < j)
    (hf : f ((i + j) / 2) = some false) :
    searchLoop f i j = searchLoop f ((i + j) / 2 + 1) j := by
  rw [searchLoop, if_pos h]
  simp only [hf]

theorem searchLoop_of_true (f : Nat → Option Bool) (i j : Nat) (h : i < j)
    (hf : f ((i + j) / 2) = some true) :
    searchLoop f i j = searchLoop f i ((i + j) / 2) := by
  rw [searchLoop, if_pos h]
  simp only [hf]

/-- The search returns whenever the predicate is defined between the bounds,
and its result lies between them; no order on the predicate is needed. -/
theorem searchLoop_total (f : Nat → Option Bool) (n : Nat) :
    ∀ i j, j - i = n → i ≤ j → (∀ h, i ≤ h → h < j → ∃ b, f h = some b) →
      ∃ idx, searchLoop f i j = some idx ∧ i ≤ idx ∧ idx ≤ j := by
  induction n using Nat.strong_induction_on with
  | _ n ih =>
    intro i j hn hij hf
    by_cases hlt : i < j
    · obtain ⟨b, hb⟩ := hf ((i + j) / 2) (by omega) (by omega)
      cases b with
      | false =>
        rw [searchLoop_of_false f i j hlt hb]
        obtain ⟨idx, h1, h2, h3⟩ :=
          ih (j - ((i + j) / 2 + 1)) (by omega) ((i + j) / 2 + 1) j rfl (by omega)
            (fun h h1 h2 => hf h (by omega) h2)
        exact ⟨idx, h1, by omega, h3⟩
      | true =>
        rw [searchLoop_of_true f i j hlt hb]
        obtain ⟨idx, h1, h2, h3⟩ :=
          ih ((i + j) / 2 - i) (by omega) i ((i + j) / 2) rfl (by omega)
            (fun h h1 h2 => hf h h1 (by omega))
        exact ⟨idx, h1, h2, by omega⟩
    · exact ⟨i, searchLoop_of_not_lt f i j hlt, le_refl i, hij⟩

/-- The search of `GetBefore` over any slice returns an index within the
slice. -/
theorem Search_values_total (vs : List value) (stamp : Time) :
    ∃ idx, Search vs.length (fun i => vs[i]?.map (fun v => After v.stamp stamp))
        = some idx ∧ idx ≤ vs.length := by
  obtain ⟨idx, h1, _, h3⟩ :=
    searchLoop_total (fun i => vs[i]?.map (fun v => After v.stamp stamp))
      vs.length 0 vs.length rfl (Nat.zero_le _)
      (fun h _ h2 => ⟨After vs[h].stamp stamp, by simp [List.getElem?_eq_getElem h2]⟩)
  exact ⟨idx, h1, h3⟩

/-! ## Reads on a store -/

theorem getTimeStore_of_some {tm : TimeMap} {key : String} {ts : timeStore}
    (h : tm.times.lookup key = some ts) : tm.getTimeStore key = .ok ts := by
  simp [TimeMap.getTimeStore, h]

theorem getTimeStore_of_none {tm : TimeMap} {key : String}
    (h : tm.times.lookup key = none) : tm.getTimeStore key = .error (.keyNotFound key) := by
  simp [TimeMap.getTimeStore, h]

theorem Get_of_none {tm : TimeMap} {key : String} (stamp : List Time)
    (h : tm.times.lookup key = none) : tm.Get key stamp = .err (.keyNotFound key) := by
  simp [TimeMap.Get, getTimeStore_of_none h]

theorem GetBefore_of_none {tm : TimeMap} {key : String} (stamp : Time)
    (h : tm.times.lookup key = none) : tm.GetBefore key stamp = .err (.keyNotFound key) := by
  simp [TimeMap.GetBefore, getTimeStore_of_none h]

theorem Get_latest_of_some {tm : TimeMap} {key : String} {ts : timeStore}
    (h : tm.times.lookup key = some ts) :
    tm.Get key [] =
      match ts.values.getLast? with
      | some v => .ok v
      | none => .panic := by
  simp [TimeMap.Get, getTimeStore_of_some h]

theorem Get_stamp_of_some {tm : TimeMap} {key : String} {ts : timeStore}
    (h : tm.times.lookup key = some ts) (t : Time) (rest : List Time) :
    tm.Get key (t :: rest) =
      match ts.timeIndex.lookup t with
      | some v => .ok v
      | none => .err (.timestampNotFound key t) := by
  simp [TimeMap.Get, getTimeStore_of_some h]

/-- On a known key `GetBefore` returns a prefix of the slice of the key. -/
theorem GetBefore_of_some {tm : TimeMap} {key : String} {ts : timeStore}
    (h : tm.times.lookup key = some ts) (stamp : Time) :
    ∃ idx, idx ≤ ts.values.length ∧ tm.GetBefore key stamp = .ok (ts.values.take idx) := by
  obtain ⟨idx, h1, h2⟩ := Search_values_total ts.values stamp
  refine ⟨idx, h2, ?_⟩
  simp [TimeMap.GetBefore, getTimeStore_of_some h, h1, h2]

/-- The search ends at the upper bound when the predicate is false everywhere
between the bounds. -/
theorem searchLoop_all_false (f : Nat → Option Bool) (n : Nat) :
    ∀ i j, j - i = n → i ≤ j → (∀ h, i ≤ h → h < j → f h = some false) →
      searchLoop f i j = some j := by
  induction n using Nat.strong_induction_on with
  | _ n ih =>
    intro i j hn hij hf
    by_cases hlt : i < j
    · rw [searchLoop_of_false f i j hlt (hf _ (by omega) (by omega))]
      exact ih (j - ((i + j) / 2 + 1)) (by omega) _ j rfl (by omega)
        (fun h h1 h2 => hf h (by omega) h2)
    · rw [searchLoop_of_not_lt f i j hlt]
      congr 1
      omega

/-- On a known key, if no record is after the argument, in particular if all
records are strictly before it, `GetBefore` returns the full sequence, sorted
or not. -/
theorem GetBefore_full_of_none_after {tm : TimeMap} {key : String} {ts : timeStore}
    (h : tm.times.lookup key = some ts) (stamp : Time)
    (hall : ∀ v ∈ ts.values, v.stamp ≤ stamp) :
    tm.GetBefore key stamp = .ok ts.values := by
  have hs : Search ts.values.length
      (fun i => ts.values[i]?.map (fun v => After v.stamp stamp)) = some ts.values.length := by
    refine searchLoop_all_false _ ts.values.length 0 _ rfl (Nat.zero_le _) ?_
    intro i _ hi
    have := hall ts.values[i] (List.getElem_mem _)
    simp [List.getElem?_eq_getElem hi, After]
    exact this
  simp [TimeMap.GetBefore, getTimeStore_of_some h, hs]

/-! ## The claims -/

/-- C1, at the failing input: after insertions under one key at the timestamps
1 < 2 < 3 < 4 < 5, `GetBefore(k, 3)` returns the records of 1, 2 and 3. The
record whose timestamp equals the argument is part of the result, so the result
is not the sequence of records strictly before the argument (the records of 1
and 2). -/
theorem GetBefore_includes_record_at_stamp :
    (run [⟨"dog", "woof", 1⟩, ⟨"dog", "bark", 2⟩, ⟨"dog", "sigh", 3⟩,
        ⟨"dog", "growl", 4⟩, ⟨"dog", "wimper", 5⟩]).GetBefore "dog" 3
      = .ok [⟨1, "woof"⟩, ⟨2, "bark"⟩, ⟨3, "sigh"⟩] ∧
    (run [⟨"dog", "woof", 1⟩, ⟨"dog", "bark", 2⟩, ⟨"dog", "sigh", 3⟩,
        ⟨"dog", "growl", 4⟩, ⟨"dog", "wimper", 5⟩]).GetBefore "dog" 3
      ≠ .ok [⟨1, "woof"⟩, ⟨2, "bark"⟩] := by
  have h := lookup_run_of_mem
    [⟨"dog", "woof", 1⟩, ⟨"dog", "bark", 2⟩, ⟨"dog", "sigh", 3⟩,
        ⟨"dog", "growl", 4⟩, ⟨"dog", "wimper", 5⟩] "dog" ⟨"dog", "woof", 1⟩ (by simp) rfl
  simp [TimeMap.GetBefore, getTimeStore_of_some h, storeOf, history, Search, searchLoop,
    After, SetCall.record]

/-- C2: in a store reached from `New()` by `Set` calls, of which `c` is the
most recent one on its key (the later calls `post` are on other keys, the
earlier calls `pre` are arbitrary), `Get(key)` without a timestamp succeeds and
returns the record of `c`, timestamp and payload, and that record is the last
element of the ordered sequence of the key. -/
theorem Get_latest_returns_most_recent_Set (pre post : List SetCall) (c : SetCall)
    (hpost : ∀ d ∈ post, d.key ≠ c.key) :
    (run (pre ++ c :: post)).Get c.key [] = .ok { stamp := c.now, val := c.data } ∧
    ∃ ts, (run (pre ++ c :: post)).times.lookup c.key = some ts ∧
      ts.values.getLast? = some { stamp := c.now, val := c.data } := by
  have hset : ∃ d ∈ pre ++ c :: post, d.key = c.key := ⟨c, by simp, rfl⟩
  have hl := lookup_run_of_set hset
  have hh : history (pre ++ c :: post) c.key = history pre c.key ++ [c.record] := by
    rw [history_append, history_cons_self, history_eq_nil.2 hpost]
  have hlast : (storeOf (history (pre ++ c :: post) c.key)).values.getLast?
      = some { stamp := c.now, val := c.data } := by
    simp [storeOf, hh, SetCall.record]
  refine ⟨?_, _, hl, hlast⟩
  rw [Get_latest_of_some hl, hlast]

/-- Witness of C2: `Set("dog")`, `Set("cat")`, `Set("dog")`, `Set("cat")`; the
latest record of `"dog"` is the one of the third call. -/
theorem Get_latest_returns_most_recent_Set_witness :
    (∀ d ∈ [(⟨"cat", "meow", 4⟩ : SetCall)], d.key ≠ "dog") ∧
    (run [⟨"dog", "woof", 1⟩, ⟨"cat", "hiss", 2⟩, ⟨"dog", "bark", 3⟩,
      ⟨"cat", "meow", 4⟩]).Get "dog" [] = .ok ⟨3, "bark"⟩ :=
  ⟨by decide,
    (Get_latest_returns_most_recent_Set [⟨"dog", "woof", 1⟩, ⟨"cat", "hiss", 2⟩]
      [⟨"cat", "meow", 4⟩] ⟨"dog", "bark", 3⟩ (by decide)).1⟩

/-- C3, as stated, fails: two `Set` calls on `"dog"` that read the same
timestamp 1 insert `"woof"` and then `"bark"`; `Get("dog", 1)` returns the
payload `"bark"`, not the payload `"woof"` of the first inserted record. -/
theorem Get_exact_roundtrip_counterexample :
    (⟨"dog", "woof", 1⟩ : SetCall) ∈ [(⟨"dog", "woof", 1⟩ : SetCall), ⟨"dog", "bark", 1⟩] ∧
    (run [⟨"dog", "woof", 1⟩, ⟨"dog", "bark", 1⟩]).Get "dog" [1] = .ok ⟨1, "bark"⟩ ∧
    (run [⟨"dog", "woof", 1⟩, ⟨"dog", "bark", 1⟩]).Get "dog" [1] ≠ .ok ⟨1, "woof"⟩ := by
  have h := lookup_run_of_mem
    [⟨"dog", "woof", 1⟩, ⟨"dog", "bark", 1⟩] "dog" ⟨"dog", "woof", 1⟩ (by simp) rfl
  have hi : (storeOf (history [⟨"dog", "woof", 1⟩, ⟨"dog", "bark", 1⟩] "dog")).timeIndex.lookup 1
      = some ⟨1, "bark"⟩ := by decide
  rw [Get_stamp_of_some h, hi]
  simp

/-- C3, amended: in a store reached from `New()` by `Set` calls, for the record
that a call `Set(k, p)` inserted under `k` with timestamp `t`, provided that no
later `Set` call on `k` read the same timestamp `t`, `Get(k, t)` succeeds and
returns exactly that record, so exactly the payload `p`. -/
theorem Get_exact_roundtrip (pre post : List SetCall) (c : SetCall)
    (hpost : ∀ d ∈ post, d.key = c.key → d.now ≠ c.now) :
    (run (pre ++ c :: post)).Get c.key [c.now] = .ok { stamp := c.now, val := c.data } := by
  have hset : ∃ d ∈ pre ++ c :: post, d.key = c.key := ⟨c, by simp, rfl⟩
  have hl := lookup_run_of_set hset
  have hh : history (pre ++ c :: post) c.key
      = history pre c.key ++ c.record :: history post c.key := by
    rw [history_append, history_cons_self]
  have hlater : ∀ w ∈ history post c.key, w.stamp ≠ c.record.stamp := by
    intro w hw
    obtain ⟨d, hd, hk, rfl⟩ := mem_history.1 hw
    exact hpost d hd hk
  have hi : (storeOf (history (pre ++ c :: post) c.key)).timeIndex.lookup c.now
      = some c.record := by
    rw [hh]
    exact lookup_indexOf_last _ _ c.record hlater
  rw [Get_stamp_of_some hl, hi]
  rfl

/-- Witness of the amended C3: the record of the first of three calls, with
distinct timestamps on its key and a call on another key at the same
timestamp. -/
theorem Get_exact_roundtrip_witness :
    (∀ d ∈ [(⟨"cat", "hiss", 1⟩ : SetCall), ⟨"dog", "bark", 2⟩],
      d.key = "dog" → d.now ≠ 1) ∧
    (run [⟨"dog", "woof", 1⟩, ⟨"cat", "hiss", 1⟩, ⟨"dog", "bark", 2⟩]).Get "dog" [1]
      = .ok ⟨1, "woof"⟩ :=
  ⟨by decide,
    Get_exact_roundtrip [] [⟨"cat", "hiss", 1⟩, ⟨"dog", "bark", 2⟩] ⟨"dog", "woof", 1⟩
      (by decide)⟩

/-- C4: in a store reached from `New()` by `Set` calls, each of `Get(k)`,
`Get(k, t)` and `GetBefore(k, t)` fails with the key-not-found error for `k`
if and only if no `Set` call was made on `k`; every read on the new store
fails with that error; and `GetBefore` on a key that has been set returns a
sequence, possibly empty, never an error or a panic. -/
theorem reads_fail_keyNotFound_iff_never_set (ops : List SetCall) (k : String) (t : Time) :
    ((run ops).Get k [] = .err (.keyNotFound k) ↔ ∀ c ∈ ops, c.key ≠ k) ∧
    ((run ops).Get k [t] = .err (.keyNotFound k) ↔ ∀ c ∈ ops, c.key ≠ k) ∧
    ((run ops).GetBefore k t = .err (.keyNotFound k) ↔ ∀ c ∈ ops, c.key ≠ k) ∧
    (New.Get k [] = .err (.keyNotFound k) ∧ New.Get k [t] = .err (.keyNotFound k) ∧
      New.GetBefore k t = .err (.keyNotFound k)) ∧
    ((∃ c ∈ ops, c.key = k) → ∃ vs, (run ops).GetBefore k t = .ok vs) := by
  have hnew : New.times.lookup k = none := Finmap.lookup_empty k
  have hknown : (∃ c ∈ ops, c.key = k) → ∃ vs, (run ops).GetBefore k t = .ok vs := by
    intro hset
    obtain ⟨idx, _, h⟩ := GetBefore_of_some (lookup_run_of_set hset) t
    exact ⟨_, h⟩
  refine ⟨⟨?_, fun h => Get_of_none _ (lookup_run_of_not_set h)⟩,
    ⟨?_, fun h => Get_of_none _ (lookup_run_of_not_set h)⟩,
    ⟨?_, fun h => GetBefore_of_none _ (lookup_run_of_not_set h)⟩,
    ⟨Get_of_none _ hnew, Get_of_none _ hnew, GetBefore_of_none _ hnew⟩, hknown⟩
  · intro h
    by_contra hne
    push_neg at hne
    have hl := lookup_run_of_set hne
    rw [Get_latest_of_some hl] at h
    have hnn : (storeOf (history ops k)).values ≠ [] := history_ne_nil.2 hne
    cases hv : (storeOf (history ops k)).values.getLast? with
    | none => exact hnn (List.getLast?_eq_none_iff.1 hv)
    | some v =>
      rw [hv] at h
      cases h
  · intro h
    by_contra hne
    push_neg at hne
    have hl := lookup_run_of_set hne
    rw [Get_stamp_of_some hl] at h
    cases hv : (storeOf (history ops k)).timeIndex.lookup t with
    | none =>
      rw [hv] at h
      cases h
    | some v =>
      rw [hv] at h
      cases h
  · intro h
    by_contra hne
    push_neg at hne
    obtain ⟨vs, hvs⟩ := hknown hne
    rw [hvs] at h
    cases h

/-- C5: in a store reached from `New()` by `Set` calls, for a key `k` that has
been set, `Get(k, t)` fails with the timestamp-not-found error for `k` and `t`
if and only if no record of `k` carries exactly the timestamp `t`, and it never
fails with the key-not-found error; the result depends on exact equality only,
so a `t` that no record carries fails wherever it lies among the insertion
timestamps. -/
theorem Get_fails_timestampNotFound_iff (ops : List SetCall) (k : String) (t : Time)
    (hset : ∃ c ∈ ops, c.key = k) :
    ((run ops).Get k [t] = .err (.timestampNotFound k t) ↔
      ∀ c ∈ ops, c.key = k → c.now ≠ t) ∧
    (run ops).Get k [t] ≠ .err (.keyNotFound k) := by
  have hl := lookup_run_of_set hset
  rw [Get_stamp_of_some hl]
  have hnone : (storeOf (history ops k)).timeIndex.lookup t = none ↔
      ∀ c ∈ ops, c.key = k → c.now ≠ t := by
    show (indexOf (history ops k)).lookup t = none ↔ _
    rw [lookup_indexOf_eq_none]
    constructor
    · intro h c hc hk
      exact h c.record (mem_history.2 ⟨c, hc, hk, rfl⟩)
    · intro h v hv
      obtain ⟨c, hc, hk, rfl⟩ := mem_history.1 hv
      exact h c hc hk
  cases hv : (storeOf (history ops k)).timeIndex.lookup t with
  | none =>
    refine ⟨⟨fun _ => hnone.1 hv, fun _ => rfl⟩, ?_⟩
    intro h
    cases h
  | some v =>
    refine ⟨⟨fun h => ?_, fun h => ?_⟩, ?_⟩
    · cases h
    · rw [hnone.2 h] at hv
      cases hv
    · intro h
      cases h

/-- Witness of C5: records of `"dog"` at the timestamps 1 and 3; the timestamp
2 lies strictly between them and `Get("dog", 2)` fails with the
timestamp-not-found error. -/
theorem Get_fails_timestampNotFound_iff_witness :
    (∃ c ∈ [(⟨"dog", "woof", 1⟩ : SetCall), ⟨"dog", "bark", 3⟩], c.key = "dog") ∧
    (run [⟨"dog", "woof", 1⟩, ⟨"dog", "bark", 3⟩]).Get "dog" [2]
      = .err (.timestampNotFound "dog" 2) :=
  ⟨by decide,
    (Get_fails_timestampNotFound_iff [⟨"dog", "woof", 1⟩, ⟨"dog", "bark", 3⟩] "dog" 2
      (by decide)).1.2 (by decide)⟩

/-- C6: for every store, key (the empty string is a key like any other),
payload `p` and clock reading `t`, `Set(k, p)` returns a store in which `k`
exists; when `k` was known, its sequence is the previous sequence followed by
the record `(t, p)` and its index is the previous index with `t` mapped to that
record; when `k` was unknown, the previous sequence and index are the empty
ones. `Set` has no failing outcome: it is a total function on stores. -/
theorem Set_appends_record_and_indexes_it (tm : TimeMap) (k p : String) (t : Time) :
    k ∈ (tm.Set k p t).times ∧
    (∀ prev, tm.times.lookup k = some prev →
      (tm.Set k p t).times.lookup k = some
        { values := prev.values ++ [{ stamp := t, val := p }],
          timeIndex := prev.timeIndex.insert t { stamp := t, val := p } }) ∧
    (tm.times.lookup k = none →
      (tm.Set k p t).times.lookup k = some
        { values := [{ stamp := t, val := p }],
          timeIndex := (∅ : Finmap (fun _ : Time => value)).insert t
            { stamp := t, val := p } }) ∧
    (∀ prev, tm.times.lookup "" = some prev →
      (tm.Set "" p t).times.lookup "" = some
        { values := prev.values ++ [{ stamp := t, val := p }],
          timeIndex := prev.timeIndex.insert t { stamp := t, val := p } }) := by
  refine ⟨?_, ?_, ?_, ?_⟩
  · rw [← Finmap.lookup_isSome, lookup_Set_self]
    rfl
  · intro prev h
    rw [lookup_Set_self, h]
    rfl
  · intro h
    rw [lookup_Set_self, h]
    rfl
  · intro prev h
    rw [lookup_Set_self, h]
    rfl

/-- C7, as stated, fails: after two `Set` calls on `"dog"` that read the same
timestamp 1, the record `(1, "woof")` is in the ordered sequence and the index
holds `(1, "bark")` under 1, so that record of the sequence is not in the
index. -/
theorem index_consistency_counterexample :
    (run [⟨"dog", "woof", 1⟩, ⟨"dog", "bark", 1⟩]).times.lookup "dog" = some
      { values := [⟨1, "woof"⟩, ⟨1, "bark"⟩],
        timeIndex := (∅ : Finmap (fun _ : Time => value)).insert 1 ⟨1, "bark"⟩ } ∧
    (⟨1, "woof"⟩ : value) ∈ [(⟨1, "woof"⟩ : value), ⟨1, "bark"⟩] ∧
    ((∅ : Finmap (fun _ : Time => value)).insert 1 ⟨1, "bark"⟩).lookup 1
      = some ⟨1, "bark"⟩ ∧
    ((∅ : Finmap (fun _ : Time => value)).insert 1 ⟨1, "bark"⟩).lookup 1
      ≠ some ⟨1, "woof"⟩ := by
  have h := lookup_run_of_mem
    [⟨"dog", "woof", 1⟩, ⟨"dog", "bark", 1⟩] "dog" ⟨"dog", "woof", 1⟩ (by simp) rfl
  refine ⟨?_, by decide, by decide, by decide⟩
  rw [h]
  decide

/-- C7, amended: in a store reached from `New()` by `Set` calls, for every
key, every index entry is a record of the ordered sequence, stored under its
own timestamp; every record of the sequence that no later record of the key
shares its timestamp with appears in the index under its own timestamp and
under no other; so when the timestamps of the key are pairwise distinct, every
record of the sequence appears in the index exactly once, under its own
timestamp, and the sequence and the index hold the same set of records. -/
theorem index_consistent_up_to_collisions (ops : List SetCall) (k : String) (ts : timeStore)
    (h : (run ops).times.lookup k = some ts) :
    (∀ t v, ts.timeIndex.lookup t = some v → v ∈ ts.values ∧ v.stamp = t) ∧
    (∀ pre v post, ts.values = pre ++ v :: post → (∀ w ∈ post, w.stamp ≠ v.stamp) →
      ∀ t, ts.timeIndex.lookup t = some v ↔ t = v.stamp) ∧
    (ts.values.Pairwise (fun a b => a.stamp ≠ b.stamp) →
      (∀ v ∈ ts.values, ∀ t, ts.timeIndex.lookup t = some v ↔ t = v.stamp) ∧
      (∀ v, v ∈ ts.values ↔ ∃ t, ts.timeIndex.lookup t = some v)) := by
  obtain ⟨_, rfl⟩ := lookup_run_eq_some h
  have h1 : ∀ t v, (storeOf (history ops k)).timeIndex.lookup t = some v →
      v ∈ (storeOf (history ops k)).values ∧ v.stamp = t :=
    fun t v hv => mem_of_lookup_indexOf hv
  have h2 : ∀ pre v post, (storeOf (history ops k)).values = pre ++ v :: post →
      (∀ w ∈ post, w.stamp ≠ v.stamp) →
      ∀ t, (storeOf (history ops k)).timeIndex.lookup t = some v ↔ t = v.stamp := by
    intro pre v post hv hpost t
    constructor
    · intro ht
      exact (h1 t v ht).2.symm
    · intro ht
      subst ht
      show (indexOf (history ops k)).lookup v.stamp = some v
      have hv' : history ops k = pre ++ v :: post := hv
      rw [hv']
      exact lookup_indexOf_last pre post v hpost
  refine ⟨h1, h2, fun hd => ?_⟩
  have h3 : ∀ v ∈ (storeOf (history ops k)).values,
      ∀ t, (storeOf (history ops k)).timeIndex.lookup t = some v ↔ t = v.stamp := by
    intro v hv t
    obtain ⟨pre, post, hsplit⟩ := List.append_of_mem hv
    refine h2 pre v post hsplit ?_ t
    rw [hsplit, List.pairwise_append] at hd
    intro w hw
    exact Ne.symm ((List.pairwise_cons.1 hd.2.1).1 w hw)
  refine ⟨h3, fun v => ⟨fun hv => ⟨v.stamp, (h3 v hv v.stamp).2 rfl⟩, ?_⟩⟩
  rintro ⟨t, ht⟩
  exact (h1 t v ht).1

/-- Witness of the amended C7: two records of `"dog"` with the distinct
timestamps 1 and 2; each is in the index under its own timestamp. -/
theorem index_consistent_up_to_collisions_witness :
    (run [⟨"dog", "woof", 1⟩, ⟨"dog", "bark", 2⟩]).times.lookup "dog" = some
      { values := [⟨1, "woof"⟩, ⟨2, "bark"⟩],
        timeIndex := ((∅ : Finmap (fun _ : Time => value)).insert 1 ⟨1, "woof"⟩).insert 2
          ⟨2, "bark"⟩ } ∧
    ∀ v ∈ [(⟨1, "woof"⟩ : value), ⟨2, "bark"⟩], ∀ t,
      (((∅ : Finmap (fun _ : Time => value)).insert 1 ⟨1, "woof"⟩).insert 2
          ⟨2, "bark"⟩).lookup t = some v ↔ t = v.stamp := by
  have h : (run [⟨"dog", "woof", 1⟩, ⟨"dog", "bark", 2⟩]).times.lookup "dog" = some
      { values := [⟨1, "woof"⟩, ⟨2, "bark"⟩],
        timeIndex := ((∅ : Finmap (fun _ : Time => value)).insert 1 ⟨1, "woof"⟩).insert 2
          ⟨2, "bark"⟩ } := by
    rw [lookup_run_of_set ⟨⟨"dog", "woof", 1⟩, by simp, rfl⟩]
    decide
  exact ⟨h, ((index_consistent_up_to_collisions _ "dog" _ h).2.2 (by decide)).1⟩

/-- C8: if the clock readings taken by successive `Set` calls are
non-decreasing, then in the store reached from `New()` by those calls, for
every key, the timestamps of the records of the ordered sequence are
non-decreasing in insertion order: the sequence is sorted by timestamp. -/
theorem values_sorted_of_monotonic_clock (ops : List SetCall)
    (hclock : (ops.map SetCall.now).Chain' (· ≤ ·)) (k : String) (ts : timeStore)
    (h : (run ops).times.lookup k = some ts) :
    ts.values.Pairwise (fun a b => a.stamp ≤ b.stamp) := by
  obtain ⟨_, rfl⟩ := lookup_run_eq_some h
  have hp : ops.Pairwise (fun a b => a.now ≤ b.now) :=
    List.pairwise_map.1 (List.chain'_iff_pairwise.1 hclock)
  show (history ops k).Pairwise (fun a b => a.stamp ≤ b.stamp)
  rw [history, List.pairwise_map]
  exact hp.filter _

/-- Witness of C8: four calls on two keys with the readings 1, 2, 2, 5. -/
theorem values_sorted_of_monotonic_clock_witness :
    (([⟨"dog", "woof", 1⟩, ⟨"cat", "hiss", 2⟩, ⟨"dog", "bark", 2⟩,
        ⟨"dog", "sigh", 5⟩] : List SetCall).map SetCall.now).Chain' (· ≤ ·) ∧
    (run [⟨"dog", "woof", 1⟩, ⟨"cat", "hiss", 2⟩, ⟨"dog", "bark", 2⟩,
        ⟨"dog", "sigh", 5⟩]).times.lookup "dog"
      = some (storeOf [⟨1, "woof"⟩, ⟨2, "bark"⟩, ⟨5, "sigh"⟩]) ∧
    (storeOf [⟨1, "woof"⟩, ⟨2, "bark"⟩, ⟨5, "sigh"⟩]).values.Pairwise
      (fun a b => a.stamp ≤ b.stamp) := by
  have h : (run [⟨"dog", "woof", 1⟩, ⟨"cat", "hiss", 2⟩, ⟨"dog", "bark", 2⟩,
        ⟨"dog", "sigh", 5⟩]).times.lookup "dog"
      = some (storeOf [⟨1, "woof"⟩, ⟨2, "bark"⟩, ⟨5, "sigh"⟩]) := by
    rw [lookup_run_of_set ⟨⟨"dog", "woof", 1⟩, by simp, rfl⟩]
    decide
  exact ⟨by simp, h, values_sorted_of_monotonic_clock _ (by simp) "dog" _ h⟩

/-- C9: when two `Set` calls on the same key `k` read the identical
timestamp `t`, with payloads `p1` then `p2` (after any calls `pre`, with any
calls `mid` between them), then after the second call the ordered sequence of
`k` contains both records `(t, p1)` and `(t, p2)`, in that order, and ends with
`(t, p2)`; the index holds the later record under `t`, and when the payloads
differ it holds the earlier record under no timestamp; and `Get(k, t)` returns
the record with payload `p2`. -/
theorem collision_keeps_both_records_and_indexes_the_later (pre mid : List SetCall)
    (k p1 p2 : String) (t : Time) :
    ∃ ts, (run (pre ++ ⟨k, p1, t⟩ :: (mid ++ [⟨k, p2, t⟩]))).times.lookup k = some ts ∧
      List.Sublist [{ stamp := t, val := p1 }, { stamp := t, val := p2 }] ts.values ∧
      ts.values.getLast? = some { stamp := t, val := p2 } ∧
      ts.timeIndex.lookup t = some { stamp := t, val := p2 } ∧
      (p1 ≠ p2 → ∀ t', ts.timeIndex.lookup t' ≠ some { stamp := t, val := p1 }) ∧
      (run (pre ++ ⟨k, p1, t⟩ :: (mid ++ [⟨k, p2, t⟩]))).Get k [t]
        = .ok { stamp := t, val := p2 } := by
  have hset : ∃ d ∈ pre ++ ⟨k, p1, t⟩ :: (mid ++ [⟨k, p2, t⟩]), d.key = k :=
    ⟨⟨k, p1, t⟩, by simp, rfl⟩
  have hl := lookup_run_of_set hset
  have hh : history (pre ++ ⟨k, p1, t⟩ :: (mid ++ [⟨k, p2, t⟩])) k
      = (history pre k ++ ⟨t, p1⟩ :: history mid k) ++ [⟨t, p2⟩] := by
    have e1 := history_cons_self ⟨k, p1, t⟩ (mid ++ [⟨k, p2, t⟩])
    have e2 := history_cons_self ⟨k, p2, t⟩ []
    simp only [SetCall.record] at e1 e2
    rw [history_append, e1, history_append, e2, history_nil]
    simp
  have hi : (storeOf (history (pre ++ ⟨k, p1, t⟩ :: (mid ++ [⟨k, p2, t⟩])) k)).timeIndex.lookup t
      = some ⟨t, p2⟩ := by
    show (indexOf _).lookup t = _
    rw [hh, lookup_indexOf_snoc, if_pos rfl]
  refine ⟨_, hl, ?_, ?_, hi, ?_, ?_⟩
  · show List.Sublist _ (history _ k)
    rw [hh]
    have : [({ stamp := t, val := p1 } : value), { stamp := t, val := p2 }]
        = [{ stamp := t, val := p1 }] ++ [{ stamp := t, val := p2 }] := rfl
    rw [this]
    refine List.Sublist.append ?_ (List.Sublist.refl _)
    exact List.singleton_sublist.2 (by simp)
  · show (history _ k).getLast? = _
    rw [hh]
    exact List.getLast?_concat _
  · intro hp t' ht'
    have hst := (mem_of_lookup_indexOf ht').2
    simp only at hst
    subst hst
    rw [hi] at ht'
    exact hp (congrArg value.val (Option.some.inj ht')).symm
  · rw [Get_stamp_of_some hl, hi]

/-- C10, at the failing input: the only record of `"dog"` has the timestamp 3,
so none of its records is strictly before 3, and `GetBefore("dog", 3)` returns
that record instead of the empty sequence. -/
theorem GetBefore_not_empty_when_none_strictly_before :
    (run [⟨"dog", "woof", 3⟩]).times.lookup "dog" = some (storeOf [⟨3, "woof"⟩]) ∧
    (∀ v ∈ (storeOf [⟨3, "woof"⟩]).values, ¬ v.stamp < 3) ∧
    (run [⟨"dog", "woof", 3⟩]).GetBefore "dog" 3 = .ok [⟨3, "woof"⟩] := by
  have h : (run [⟨"dog", "woof", 3⟩]).times.lookup "dog" = some (storeOf [⟨3, "woof"⟩]) := by
    rw [lookup_run_of_set ⟨⟨"dog", "woof", 3⟩, by simp, rfl⟩]
    decide
  refine ⟨h, by decide, ?_⟩
  simp [TimeMap.GetBefore, getTimeStore_of_some h, storeOf, Search, searchLoop, After]

/-! ## Reads and writes as state transformers -/

/-- A read on a key depends on the store through the entry of that key
only. -/
theorem Get_congr {tm tm' : TimeMap} {k : String} (h : tm'.times.lookup k = tm.times.lookup k)
    (stamp : List Time) : tm'.Get k stamp = tm.Get k stamp := by
  simp [TimeMap.Get, TimeMap.getTimeStore, h]

theorem GetBefore_congr {tm tm' : TimeMap} {k : String}
    (h : tm'.times.lookup k = tm.times.lookup k) (stamp : Time) :
    tm'.GetBefore k stamp = tm.GetBefore k stamp := by
  simp [TimeMap.GetBefore, TimeMap.getTimeStore, h]

theorem lookup_exec_of_some (tm : TimeMap) (c : Call) (k : String) (ts : timeStore)
    (h : tm.times.lookup k = some ts) :
    ∃ ts' rest, (tm.exec c).1.times.lookup k = some ts' ∧ ts'.values = ts.values ++ rest := by
  cases c with
  | get key stamp => exact ⟨ts, [], h, by simp⟩
  | getBefore key stamp => exact ⟨ts, [], h, by simp⟩
  | set key data now =>
    by_cases hk : k = key
    · subst hk
      refine ⟨_, [⟨now, data⟩], lookup_Set_self tm k data now, ?_⟩
      rw [h]
      rfl
    · exact ⟨ts, [], by rw [← h]; exact lookup_Set_of_ne tm key data now k hk, by simp⟩

/-- C12: for every store and every `Set` call, a key that existed before the
call exists after it, and its ordered sequence after the call is the sequence
before the call followed by the new record (the key of the call) or by nothing
(any other key), so the earlier records keep their place, timestamp and
payload; and the same holds, with nothing appended, for `Get` and `GetBefore`:
no call removes a key or removes or alters a record. -/
theorem histories_only_grow (tm : TimeMap) (k : String) (ts : timeStore)
    (h : tm.times.lookup k = some ts) :
    (∀ key data now, ∃ ts', (tm.Set key data now).times.lookup k = some ts' ∧
      ts'.values = ts.values ++ (if k = key then [{ stamp := now, val := data }] else [])) ∧
    (∀ c : Call, ∃ ts' rest, (tm.exec c).1.times.lookup k = some ts' ∧
      ts'.values = ts.values ++ rest) ∧
    (∀ cs : List Call, ∃ ts' rest, (tm.execAll cs).times.lookup k = some ts' ∧
      ts'.values = ts.values ++ rest) := by
  refine ⟨?_, fun c => lookup_exec_of_some tm c k ts h, ?_⟩
  · intro key data now
    by_cases hk : k = key
    · subst hk
      refine ⟨_, lookup_Set_self tm k data now, ?_⟩
      rw [h, if_pos rfl]
      rfl
    · refine ⟨ts, by rw [← h]; exact lookup_Set_of_ne tm key data now k hk, ?_⟩
      rw [if_neg hk, List.append_nil]
  · intro cs
    induction cs using List.reverseRecOn with
    | nil => exact ⟨ts, [], h, by simp⟩
    | append_singleton cs c ih =>
      obtain ⟨ts1, rest1, h1, e1⟩ := ih
      obtain ⟨ts2, rest2, h2, e2⟩ := lookup_exec_of_some (tm.execAll cs) c k ts1 h1
      refine ⟨ts2, rest1 ++ rest2, ?_, ?_⟩
      · simpa [TimeMap.execAll, List.foldl_append] using h2
      · rw [e2, e1, List.append_assoc]

/-- Witness of C12: `"dog"` holds one record; a `Set` on `"dog"` appends to
it. -/
theorem histories_only_grow_witness :
    (run [⟨"dog", "woof", 1⟩]).times.lookup "dog" = some (storeOf [⟨1, "woof"⟩]) ∧
    ∃ ts', ((run [⟨"dog", "woof", 1⟩]).Set "dog" "bark" 2).times.lookup "dog" = some ts' ∧
      ts'.values = (storeOf [⟨1, "woof"⟩]).values ++
        (if "dog" = "dog" then [{ stamp := 2, val := "bark" }] else []) := by
  have h : (run [⟨"dog", "woof", 1⟩]).times.lookup "dog" = some (storeOf [⟨1, "woof"⟩]) := by
    rw [lookup_run_of_mem [⟨"dog", "woof", 1⟩] "dog" ⟨"dog", "woof", 1⟩ (by simp) rfl]
    decide
  exact ⟨h, (histories_only_grow _ "dog" _ h).1 "dog" "bark" 2⟩

/-! ## Order of the records of a key -/

/-- With non-decreasing clock readings the records of every key are in
non-decreasing order of timestamp. -/
theorem history_sorted (ops : List SetCall) (hclock : (ops.map SetCall.now).Chain' (· ≤ ·))
    (k : String) : (history ops k).Pairwise (fun a b => a.stamp ≤ b.stamp) := by
  have hp : ops.Pairwise (fun a b => a.now ≤ b.now) :=
    List.pairwise_map.1 (List.chain'_iff_pairwise.1 hclock)
  rw [history, List.pairwise_map]
  exact hp.filter _

/-- The last record of a sorted sequence has the greatest timestamp. -/
theorem le_last_of_sorted {vs : List value} {v : value}
    (hs : vs.Pairwise (fun a b => a.stamp ≤ b.stamp)) (hv : vs.getLast? = some v) :
    ∀ w ∈ vs, w.stamp ≤ v.stamp := by
  obtain ⟨init, rfl⟩ : ∃ init, vs = init ++ [v] := by
    rcases List.eq_nil_or_concat vs with h | ⟨init, x, h⟩
    · subst h
      simp at hv
    · subst h
      rw [List.concat_eq_append, List.getLast?_concat] at hv
      cases hv
      exact ⟨init, List.concat_eq_append _ _⟩
  intro w hw
  rcases List.mem_append.1 hw with hw | hw
  · exact (List.pairwise_append.1 hs).2.2 w hw v (by simp)
  · rw [List.mem_singleton.1 hw]

/-- C13: if the clock readings taken by successive `Set` calls are
non-decreasing, then in the store reached from `New()` by those calls, for
every key `k` that has been set, `Get(k)` returns a record whose timestamp is
greater than or equal to the timestamp of every record of the history of `k`
(the records of the `Set` calls on `k`, which are the records of its ordered
sequence). -/
theorem Get_latest_has_greatest_timestamp (ops : List SetCall)
    (hclock : (ops.map SetCall.now).Chain' (· ≤ ·)) (k : String)
    (hset : ∃ c ∈ ops, c.key = k) :
    ∃ v ts, (run ops).Get k [] = .ok v ∧ (run ops).times.lookup k = some ts ∧
      (∀ w ∈ ts.values, w.stamp ≤ v.stamp) ∧
      (∀ c ∈ ops, c.key = k → c.now ≤ v.stamp) := by
  have hl := lookup_run_of_set hset
  have hne : history ops k ≠ [] := history_ne_nil.2 hset
  cases hv : (history ops k).getLast? with
  | none => exact absurd (List.getLast?_eq_none_iff.1 hv) hne
  | some v =>
    have hle := le_last_of_sorted (history_sorted ops hclock k) hv
    refine ⟨v, _, ?_, hl, hle, fun c hc hk => ?_⟩
    · rw [Get_latest_of_some hl]
      show (match (history ops k).getLast? with
        | some v => Result.ok v
        | none => Result.panic) = _
      rw [hv]
    · exact hle c.record (mem_history.2 ⟨c, hc, hk, rfl⟩)

/-- Witness of C13: readings 1, 2, 2, 5 over two keys; the latest record of
`"dog"` carries 5. -/
theorem Get_latest_has_greatest_timestamp_witness :
    (([⟨"dog", "woof", 1⟩, ⟨"cat", "hiss", 2⟩, ⟨"dog", "bark", 2⟩,
        ⟨"dog", "sigh", 5⟩] : List SetCall).map SetCall.now).Chain' (· ≤ ·) ∧
    (∃ c ∈ ([⟨"dog", "woof", 1⟩, ⟨"cat", "hiss", 2⟩, ⟨"dog", "bark", 2⟩,
        ⟨"dog", "sigh", 5⟩] : List SetCall), c.key = "dog") ∧
    ∃ v ts, (run [⟨"dog", "woof", 1⟩, ⟨"cat", "hiss", 2⟩, ⟨"dog", "bark", 2⟩,
        ⟨"dog", "sigh", 5⟩]).Get "dog" [] = .ok v ∧
      (run [⟨"dog", "woof", 1⟩, ⟨"cat", "hiss", 2⟩, ⟨"dog", "bark", 2⟩,
        ⟨"dog", "sigh", 5⟩]).times.lookup "dog" = some ts ∧
      (∀ w ∈ ts.values, w.stamp ≤ v.stamp) ∧
      (∀ c ∈ ([⟨"dog", "woof", 1⟩, ⟨"cat", "hiss", 2⟩, ⟨"dog", "bark", 2⟩,
        ⟨"dog", "sigh", 5⟩] : List SetCall), c.key = "dog" → c.now ≤ v.stamp) :=
  ⟨by simp, by decide,
    Get_latest_has_greatest_timestamp _ (by simp) "dog" (by decide)⟩

/-- C14: for every store, every two distinct keys `k` and `k'`, every payload
and clock reading, `Set(k, p)` leaves the entry of `k'` as it was: the same
sequence and index when `k'` was known, and no entry when it was unknown; so
every `Get` and `GetBefore` on `k'` returns the same result before and after
the call. -/
theorem Set_leaves_other_keys_unchanged (tm : TimeMap) (k k' p : String) (t : Time)
    (hne : k' ≠ k) :
    (tm.Set k p t).times.lookup k' = tm.times.lookup k' ∧
    (tm.times.lookup k' = none → (tm.Set k p t).times.lookup k' = none) ∧
    (∀ stamp, (tm.Set k p t).Get k' stamp = tm.Get k' stamp) ∧
    (∀ stamp, (tm.Set k p t).GetBefore k' stamp = tm.GetBefore k' stamp) := by
  have h := lookup_Set_of_ne tm k p t k' hne
  exact ⟨h, fun hn => by rw [h, hn], fun stamp => Get_congr h stamp,
    fun stamp => GetBefore_congr h stamp⟩

/-- Witness of C14: a `Set` on `"cat"` in a store that knows `"dog"` only. -/
theorem Set_leaves_other_keys_unchanged_witness :
    "dog" ≠ "cat" ∧
    ((run [⟨"dog", "woof", 1⟩]).Set "cat" "hiss" 2).times.lookup "dog"
      = (run [⟨"dog", "woof", 1⟩]).times.lookup "dog" :=
  ⟨by decide,
    (Set_leaves_other_keys_unchanged (run [⟨"dog", "woof", 1⟩]) "cat" "dog" "hiss" 2
      (by decide)).1⟩

/-- C16: in a store reached from `New()` by `Set` calls, every key present in
the key-to-history mapping has an ordered sequence of length at least 1, so
the index `len(values)-1` that `Get(k)` reads is in bounds and `Get(k)` returns
the last record of the sequence: on a known key it does not panic. -/
theorem known_key_has_nonempty_history (ops : List SetCall) (k : String) (ts : timeStore)
    (h : (run ops).times.lookup k = some ts) :
    1 ≤ ts.values.length ∧ ts.values.length - 1 < ts.values.length ∧
    (∃ v, ts.values[ts.values.length - 1]? = some v ∧ (run ops).Get k [] = .ok v) ∧
    (run ops).Get k [] ≠ .panic := by
  obtain ⟨hset, rfl⟩ := lookup_run_eq_some h
  have hne : history ops k ≠ [] := history_ne_nil.2 hset
  have hlen : 1 ≤ (storeOf (history ops k)).values.length :=
    Nat.succ_le_of_lt (List.length_pos.2 hne)
  have hget : ∃ v, (storeOf (history ops k)).values[(storeOf (history ops k)).values.length - 1]?
      = some v ∧ (run ops).Get k [] = .ok v := by
    cases hv : (storeOf (history ops k)).values.getLast? with
    | none => exact absurd (List.getLast?_eq_none_iff.1 hv) hne
    | some v =>
      refine ⟨v, ?_, ?_⟩
      · rw [← hv, List.getLast?_eq_getElem?]
      · rw [Get_latest_of_some h, hv]
  refine ⟨hlen, by omega, hget, ?_⟩
  obtain ⟨v, _, hv⟩ := hget
  rw [hv]
  intro hp
  cases hp

/-- Witness of C16: the key `"dog"` after one `Set`. -/
theorem known_key_has_nonempty_history_witness :
    (run [⟨"dog", "woof", 1⟩]).times.lookup "dog" = some (storeOf [⟨1, "woof"⟩]) ∧
    1 ≤ (storeOf [⟨1, "woof"⟩]).values.length := by
  have h : (run [⟨"dog", "woof", 1⟩]).times.lookup "dog" = some (storeOf [⟨1, "woof"⟩]) := by
    rw [lookup_run_of_mem [⟨"dog", "woof", 1⟩] "dog" ⟨"dog", "woof", 1⟩ (by simp) rfl]
    decide
  exact ⟨h, (known_key_has_nonempty_history _ "dog" _ h).1⟩

/-! ## The binary search on a sorted sequence -/

/-- On a predicate that is defined below `n` and, once true, stays true, the
search returns the boundary: false below the result, true from it on. -/
theorem searchLoop_monotone (f : Nat → Option Bool) (n : Nat)
    (hdef : ∀ h, h < n → ∃ b, f h = some b)
    (hmono : ∀ a b, a ≤ b → b < n → f a = some true → f b = some true) (m : Nat) :
    ∀ i j, j - i = m → i ≤ j → j ≤ n → (∀ h, h < i → f h = some false) →
      (∀ h, j ≤ h → h < n → f h = some true) →
      ∃ idx, searchLoop f i j = some idx ∧ idx ≤ n ∧ (∀ h, h < idx → f h = some false) ∧
        (∀ h, idx ≤ h → h < n → f h = some true) := by
  induction m using Nat.strong_induction_on with
  | _ m ih =>
    intro i j hm hij hjn hlo hhi
    by_cases hlt : i < j
    · have hmid : (i + j) / 2 < n := by omega
      obtain ⟨b, hb⟩ := hdef _ hmid
      cases b with
      | false =>
        rw [searchLoop_of_false f i j hlt hb]
        refine ih (j - ((i + j) / 2 + 1)) (by omega) _ j rfl (by omega) hjn ?_ hhi
        intro h hh
        obtain ⟨b', hb'⟩ := hdef h (by omega)
        cases b' with
        | false => exact hb'
        | true =>
          have := hmono h ((i + j) / 2) (by omega) hmid hb'
          rw [hb] at this
          cases this
      | true =>
        rw [searchLoop_of_true f i j hlt hb]
        refine ih ((i + j) / 2 - i) (by omega) i _ rfl (by omega) (by omega) hlo ?_
        intro h hh hn
        exact hmono _ h hh hn hb
    · have hij' : i = j := by omega
      subst hij'
      exact ⟨i, searchLoop_of_not_lt f i i hlt, hjn, hlo, hhi⟩

theorem leastIndexAfter_le_length (vs : List value) (t : Time) :
    leastIndexAfter vs t ≤ vs.length := by
  induction vs with
  | nil => simp [leastIndexAfter]
  | cons v rest ih =>
    rw [leastIndexAfter]
    split
    · exact Nat.zero_le _
    · simpa using ih

/-- No record below the least index is after `t`. -/
theorem leastIndexAfter_before (vs : List value) (t : Time) :
    ∀ h, h < leastIndexAfter vs t →
      vs[h]?.map (fun v => After v.stamp t) = some false := by
  induction vs with
  | nil =>
    intro h hh
    simp [leastIndexAfter] at hh
  | cons v rest ih =>
    intro h hh
    rw [leastIndexAfter] at hh
    by_cases hv : After v.stamp t = true
    · rw [if_pos hv] at hh
      omega
    · rw [if_neg hv] at hh
      cases h with
      | zero => simpa using hv
      | succ h => simpa using ih h (by omega)

/-- The record at the least index, when there is one, is after `t`. -/
theorem leastIndexAfter_at (vs : List value) (t : Time)
    (h : leastIndexAfter vs t < vs.length) :
    vs[leastIndexAfter vs t]?.map (fun v => After v.stamp t) = some true := by
  induction vs with
  | nil => simp at h
  | cons v rest ih =>
    rw [leastIndexAfter] at h ⊢
    by_cases hv : After v.stamp t = true
    · rw [if_pos hv]
      simpa using hv
    · rw [if_neg hv] at h ⊢
      simpa using ih (by simpa using h)

/-- When no record is after `t` the least index is the length. -/
theorem leastIndexAfter_eq_length (vs : List value) (t : Time)
    (h : ∀ v ∈ vs, After v.stamp t = false) : leastIndexAfter vs t = vs.length := by
  induction vs with
  | nil => rfl
  | cons v rest ih =>
    rw [leastIndexAfter, if_neg (by simp [h v (by simp)]),
      ih (fun w hw => h w (List.mem_cons_of_mem _ hw))]
    rfl

/-- On a sorted sequence the records before the least index are the records
that are not after `t`. -/
theorem take_leastIndexAfter (vs : List value) (t : Time)
    (hs : vs.Pairwise (fun a b => a.stamp ≤ b.stamp)) :
    vs.take (leastIndexAfter vs t) = notAfter vs t := by
  induction vs with
  | nil => rfl
  | cons v rest ih =>
    obtain ⟨hv, hrest⟩ := List.pairwise_cons.1 hs
    rw [leastIndexAfter]
    by_cases ha : After v.stamp t = true
    · rw [if_pos ha, List.take_zero, notAfter]
      symm
      rw [List.filter_eq_nil_iff]
      intro w hw
      have hlt : t < v.stamp := by simpa [After] using ha
      rcases List.mem_cons.1 hw with hw | hw
      · subst hw
        simp [ha]
      · have hle := hv w hw
        have hw' : After w.stamp t = true := by
          simp only [After, decide_eq_true_eq]
          exact lt_of_lt_of_le hlt hle
        simp [hw']
    · rw [if_neg ha, List.take_succ_cons, ih hrest, notAfter, notAfter,
        List.filter_cons_of_pos (by simpa using ha)]

/-- On a sorted sequence the search of `GetBefore` returns the least index
whose record is after `t`. -/
theorem Search_sorted (vs : List value) (t : Time)
    (hs : vs.Pairwise (fun a b => a.stamp ≤ b.stamp)) :
    Search vs.length (fun i => vs[i]?.map (fun v => After v.stamp t))
      = some (leastIndexAfter vs t) := by
  have hdef : ∀ h, h < vs.length →
      ∃ b, (fun i => vs[i]?.map (fun v => After v.stamp t)) h = some b :=
    fun h hh => ⟨After vs[h].stamp t, by simp [List.getElem?_eq_getElem hh]⟩
  have hmono : ∀ a b, a ≤ b → b < vs.length →
      (fun i => vs[i]?.map (fun v => After v.stamp t)) a = some true →
      (fun i => vs[i]?.map (fun v => After v.stamp t)) b = some true := by
    intro a b hab hb ha
    have ha' : a < vs.length := by omega
    simp [List.getElem?_eq_getElem ha', List.getElem?_eq_getElem hb, After] at ha ⊢
    rcases Nat.eq_or_lt_of_le hab with h | h
    · subst h
      exact ha
    · exact lt_of_lt_of_le ha (List.pairwise_iff_getElem.1 hs a b ha' hb h)
  obtain ⟨idx, h1, h2, h3, h4⟩ :=
    searchLoop_monotone _ vs.length hdef hmono vs.length 0 vs.length rfl (Nat.zero_le _)
      (le_refl _) (fun h hh => absurd hh (Nat.not_lt_zero h))
      (fun h h1 h2 => absurd h2 (by omega))
  have hL := leastIndexAfter_le_length vs t
  have hidx : idx = leastIndexAfter vs t := by
    rcases Nat.lt_trichotomy idx (leastIndexAfter vs t) with hlt | heq | hgt
    · have e1 := leastIndexAfter_before vs t idx hlt
      have e2 := h4 idx (le_refl _) (by omega)
      simp only [e1] at e2
      cases e2
    · exact heq
    · have e1 := leastIndexAfter_at vs t (by omega)
      have e2 := h3 _ hgt
      simp only [e1] at e2
      cases e2
  rw [Search, h1, hidx]

/-- C15: for every key whose ordered sequence is sorted by timestamp and every
timestamp `t`, the index that `sort.Search` computes with the predicate
`values[i].stamp.After(t)` is the index of the linear scan: no record below it
is after `t`, the record at it, when there is one, is after `t`, and it is the
length of the sequence when no record is after `t`. So `GetBefore` returns
exactly the records whose timestamp is not after `t`, and, the sequence having
a first record, the result is empty exactly when that record is after `t`. -/
theorem GetBefore_search_is_linear_scan (tm : TimeMap) (k : String) (ts : timeStore)
    (t : Time) (h : tm.times.lookup k = some ts)
    (hs : ts.values.Pairwise (fun a b => a.stamp ≤ b.stamp)) :
    Search ts.values.length (fun i => ts.values[i]?.map (fun v => After v.stamp t))
      = some (leastIndexAfter ts.values t) ∧
    (∀ i v, i < leastIndexAfter ts.values t → ts.values[i]? = some v →
      After v.stamp t = false) ∧
    (∀ v, ts.values[leastIndexAfter ts.values t]? = some v → After v.stamp t = true) ∧
    ((∀ v ∈ ts.values, After v.stamp t = false) →
      leastIndexAfter ts.values t = ts.values.length) ∧
    tm.GetBefore k t = .ok (ts.values.take (leastIndexAfter ts.values t)) ∧
    tm.GetBefore k t = .ok (ts.values.filter (fun v => !After v.stamp t)) ∧
    (∀ first, ts.values.head? = some first →
      (tm.GetBefore k t = .ok [] ↔ After first.stamp t = true)) := by
  have hS := Search_sorted ts.values t hs
  have hL := leastIndexAfter_le_length ts.values t
  have hG : tm.GetBefore k t = .ok (ts.values.take (leastIndexAfter ts.values t)) := by
    simp [TimeMap.GetBefore, getTimeStore_of_some h, hS, hL]
  refine ⟨hS, ?_, ?_, leastIndexAfter_eq_length ts.values t, hG, ?_, ?_⟩
  · intro i v hi hv
    have := leastIndexAfter_before ts.values t i hi
    rw [hv] at this
    simpa using this
  · intro v hv
    have hlt : leastIndexAfter ts.values t < ts.values.length := by
      rcases Nat.lt_or_ge (leastIndexAfter ts.values t) ts.values.length with hlt | hge
      · exact hlt
      · rw [List.getElem?_eq_none hge] at hv
        cases hv
    have := leastIndexAfter_at ts.values t hlt
    rw [hv] at this
    simpa using this
  · rw [hG, take_leastIndexAfter ts.values t hs]
    rfl
  · intro first hfirst
    rw [hG]
    cases hvs : ts.values with
    | nil =>
      rw [hvs] at hfirst
      cases hfirst
    | cons v rest =>
      rw [hvs] at hfirst
      have hv : v = first := by simpa using hfirst
      subst hv
      rw [leastIndexAfter]
      by_cases ha : After v.stamp t = true
      · simp [ha]
      · simp [ha]

/-- Witness of C15: records at 1, 2, 4 and `t = 3`; the search returns index
2. -/
theorem GetBefore_search_is_linear_scan_witness :
    (run [⟨"dog", "woof", 1⟩, ⟨"dog", "bark", 2⟩, ⟨"dog", "sigh", 4⟩]).times.lookup "dog"
      = some (storeOf [⟨1, "woof"⟩, ⟨2, "bark"⟩, ⟨4, "sigh"⟩]) ∧
    (storeOf [⟨1, "woof"⟩, ⟨2, "bark"⟩, ⟨4, "sigh"⟩]).values.Pairwise
      (fun a b => a.stamp ≤ b.stamp) ∧
    (run [⟨"dog", "woof", 1⟩, ⟨"dog", "bark", 2⟩, ⟨"dog", "sigh", 4⟩]).GetBefore "dog" 3
      = .ok ((storeOf [⟨1, "woof"⟩, ⟨2, "bark"⟩, ⟨4, "sigh"⟩]).values.take
          (leastIndexAfter (storeOf [⟨1, "woof"⟩, ⟨2, "bark"⟩, ⟨4, "sigh"⟩]).values 3)) ∧
    leastIndexAfter (storeOf [⟨1, "woof"⟩, ⟨2, "bark"⟩, ⟨4, "sigh"⟩]).values 3 = 2 := by
  have h : (run [⟨"dog", "woof", 1⟩, ⟨"dog", "bark", 2⟩,
      ⟨"dog", "sigh", 4⟩]).times.lookup "dog"
      = some (storeOf [⟨1, "woof"⟩, ⟨2, "bark"⟩, ⟨4, "sigh"⟩]) := by
    rw [lookup_run_of_mem _ "dog" ⟨"dog", "woof", 1⟩ (by simp) rfl]
    decide
  have hs : (storeOf [⟨1, "woof"⟩, ⟨2, "bark"⟩, ⟨4, "sigh"⟩]).values.Pairwise
      (fun a b => a.stamp ≤ b.stamp) := by decide
  exact ⟨h, hs, (GetBefore_search_is_linear_scan _ "dog" _ 3 h hs).2.2.2.2.1, by decide⟩

/-! ## The entries of the index -/

/-- An entry of the index under `t` is the last record of the sequence that
carries `t`. -/
theorem lookup_indexOf_split {vs : List value} {t : Time} {v : value}
    (h : (indexOf vs).lookup t = some v) :
    ∃ pre post, vs = pre ++ v :: post ∧ ∀ w ∈ post, w.stamp ≠ t := by
  induction vs using List.reverseRecOn with
  | nil => simp [indexOf_nil] at h
  | append_singleton vs w ih =>
    rw [lookup_indexOf_snoc] at h
    by_cases ht : t = w.stamp
    · rw [if_pos ht] at h
      cases h
      exact ⟨vs, [], rfl, by simp⟩
    · rw [if_neg ht] at h
      obtain ⟨pre, post, hsplit, hpost⟩ := ih h
      refine ⟨pre, post ++ [w], by simp [hsplit], ?_⟩
      intro x hx
      rcases List.mem_append.1 hx with hx | hx
      · exact hpost x hx
      · rw [List.mem_singleton.1 hx]
        exact Ne.symm ht

/-- The timestamps that have an entry in the index are the timestamps of the
records of the sequence. -/
theorem keys_indexOf (vs : List value) :
    (indexOf vs).keys = (vs.map value.stamp).toFinset := by
  ext t
  rw [Finmap.mem_keys, List.mem_toFinset, List.mem_map]
  constructor
  · intro ht
    by_contra hno
    have hnone : (indexOf vs).lookup t = none :=
      lookup_indexOf_eq_none.2 (fun v hv hst => hno ⟨v, hv, hst⟩)
    exact (Finmap.lookup_eq_none.1 hnone) ht
  · rintro ⟨v, hv, hst⟩
    by_contra hno
    exact lookup_indexOf_eq_none.1 (Finmap.lookup_eq_none.2 hno) v hv hst

theorem card_keys_indexOf_le (vs : List value) : (indexOf vs).keys.card ≤ vs.length := by
  rw [keys_indexOf]
  exact le_trans (List.toFinset_card_le _) (by simp)

theorem card_keys_indexOf_eq_iff (vs : List value) :
    (indexOf vs).keys.card = vs.length ↔ (vs.map value.stamp).Nodup := by
  rw [keys_indexOf]
  constructor
  · intro h
    have h' : (Multiset.toFinset (↑(vs.map value.stamp) : Multiset Time)).card
        = Multiset.card (↑(vs.map value.stamp) : Multiset Time) := by
      simpa using h
    exact Multiset.coe_nodup.1 (Multiset.toFinset_card_eq_card_iff_nodup.1 h')
  · intro h
    rw [List.toFinset_card_of_nodup h, List.length_map]

/-- C17: in a store reached from `New()` by `Set` calls, with no assumption on
the clock, for every key, every entry of the index maps a timestamp `t` to a
record whose own timestamp is `t` and which occurs in the ordered sequence,
namely as the last record of the sequence that carries `t`; hence the index
has at most as many entries as the sequence has records, with equality exactly
when the timestamps of the records of the key are all distinct. -/
theorem index_entries_are_last_records (ops : List SetCall) (k : String) (ts : timeStore)
    (h : (run ops).times.lookup k = some ts) :
    (∀ t v, ts.timeIndex.lookup t = some v →
      v.stamp = t ∧ v ∈ ts.values ∧
      ∃ pre post, ts.values = pre ++ v :: post ∧ ∀ w ∈ post, w.stamp ≠ t) ∧
    ts.timeIndex.keys.card ≤ ts.values.length ∧
    (ts.timeIndex.keys.card = ts.values.length ↔ (ts.values.map value.stamp).Nodup) := by
  obtain ⟨_, rfl⟩ := lookup_run_eq_some h
  refine ⟨fun t v hv => ?_, card_keys_indexOf_le _, card_keys_indexOf_eq_iff _⟩
  have hv' : (indexOf (history ops k)).lookup t = some v := hv
  exact ⟨(mem_of_lookup_indexOf hv').2, (mem_of_lookup_indexOf hv').1,
    lookup_indexOf_split hv'⟩

/-- Witness of C17: two records of `"dog"` at the same timestamp and one at
another; the index has two entries, the sequence three records. -/
theorem index_entries_are_last_records_witness :
    (run [⟨"dog", "woof", 1⟩, ⟨"dog", "bark", 1⟩, ⟨"dog", "sigh", 2⟩]).times.lookup "dog"
      = some (storeOf [⟨1, "woof"⟩, ⟨1, "bark"⟩, ⟨2, "sigh"⟩]) ∧
    (storeOf [⟨1, "woof"⟩, ⟨1, "bark"⟩, ⟨2, "sigh"⟩]).timeIndex.keys.card = 2 ∧
    (storeOf [⟨1, "woof"⟩, ⟨1, "bark"⟩, ⟨2, "sigh"⟩]).timeIndex.keys.card
      ≤ (storeOf [⟨1, "woof"⟩, ⟨1, "bark"⟩, ⟨2, "sigh"⟩]).values.length := by
  have h : (run [⟨"dog", "woof", 1⟩, ⟨"dog", "bark", 1⟩,
      ⟨"dog", "sigh", 2⟩]).times.lookup "dog"
      = some (storeOf [⟨1, "woof"⟩, ⟨1, "bark"⟩, ⟨2, "sigh"⟩]) := by
    rw [lookup_run_of_mem _ "dog" ⟨"dog", "woof", 1⟩ (by simp) rfl]
    decide
  exact ⟨h, by decide, (index_entries_are_last_records _ "dog" _ h).2.1⟩

/-! ## The binary search on any sequence -/

/-- The search reads the predicate between its bounds only: two predicates
that agree there give the same result. -/
theorem searchLoop_congr (f g : Nat → Option Bool) (m : Nat) :
    ∀ i j, j - i = m → (∀ h, i ≤ h → h < j → f h = g h) →
      searchLoop f i j = searchLoop g i j := by
  induction m using Nat.strong_induction_on with
  | _ m ih =>
    intro i j hm hfg
    by_cases hlt : i < j
    · have hmid := hfg ((i + j) / 2) (by omega) (by omega)
      cases hf : f ((i + j) / 2) with
      | none =>
        have hg : g ((i + j) / 2) = none := by rw [← hmid, hf]
        rw [searchLoop, if_pos hlt, searchLoop, if_pos hlt]
        simp only [hf, hg]
      | some b =>
        have hg : g ((i + j) / 2) = some b := by rw [← hmid, hf]
        cases b with
        | false =>
          rw [searchLoop_of_false f i j hlt hf, searchLoop_of_false g i j hlt hg]
          exact ih (j - ((i + j) / 2 + 1)) (by omega) _ j rfl
            (fun h h1 h2 => hfg h (by omega) h2)
        | true =>
          rw [searchLoop_of_true f i j hlt hf, searchLoop_of_true g i j hlt hg]
          exact ih ((i + j) / 2 - i) (by omega) i _ rfl
            (fun h h1 h2 => hfg h h1 (by omega))
    · rw [searchLoop_of_not_lt f i j hlt, searchLoop_of_not_lt g i j hlt]

/-- Every index at which the search calls the predicate lies between the
bounds, and there are at most as many calls as indices between them. -/
theorem searchProbes_bounds (f : Nat → Option Bool) (m : Nat) :
    ∀ i j, j - i = m →
      (∀ h ∈ searchProbes f i j, i ≤ h ∧ h < j) ∧ (searchProbes f i j).length ≤ j - i := by
  induction m using Nat.strong_induction_on with
  | _ m ih =>
    intro i j hm
    by_cases hlt : i < j
    · rw [searchProbes, if_pos hlt]
      cases hf : f ((i + j) / 2) with
      | none =>
        simp only [hf]
        refine ⟨fun h hh => ?_, ?_⟩
        · rw [List.mem_singleton.1 hh]
          omega
        · simp
          omega
      | some b =>
        cases b with
        | false =>
          simp only [hf]
          obtain ⟨h1, h2⟩ := ih (j - ((i + j) / 2 + 1)) (by omega) ((i + j) / 2 + 1) j rfl
          refine ⟨fun h hh => ?_, ?_⟩
          · rcases List.mem_cons.1 hh with hh | hh
            · omega
            · have := h1 h hh
              omega
          · simp only [List.length_cons]
            omega
        | true =>
          simp only [hf]
          obtain ⟨h1, h2⟩ := ih ((i + j) / 2 - i) (by omega) i ((i + j) / 2) rfl
          refine ⟨fun h hh => ?_, ?_⟩
          · rcases List.mem_cons.1 hh with hh | hh
            · omega
            · have := h1 h hh
              omega
          · simp only [List.length_cons]
            omega
    · rw [searchProbes, if_neg hlt]
      simp

/-- C18: for every known key, whether or not its ordered sequence is sorted,
and every timestamp `t`, the binary search of `GetBefore` returns (it is a
total function, it calls the predicate at most as many times as the sequence
has records, and no read of `values[i]` panics), every index at which it reads
`values[i]` lies in `[0, len)`, so its result depends on the records at those
indices only, the result is an index between 0 and the length of the sequence
inclusive, and `GetBefore` returns the records before that index: a prefix of
the ordered sequence, in insertion order. -/
theorem GetBefore_total_and_prefix (tm : TimeMap) (k : String) (ts : timeStore) (t : Time)
    (h : tm.times.lookup k = some ts) :
    ∃ idx, Search ts.values.length (fun i => ts.values[i]?.map (fun v => After v.stamp t))
        = some idx ∧
      0 ≤ idx ∧ idx ≤ ts.values.length ∧
      (∀ i ∈ searchProbes (fun i => ts.values[i]?.map (fun v => After v.stamp t))
          0 ts.values.length, 0 ≤ i ∧ i < ts.values.length) ∧
      (searchProbes (fun i => ts.values[i]?.map (fun v => After v.stamp t))
          0 ts.values.length).length ≤ ts.values.length ∧
      (∀ g : Nat → Option Bool,
        (∀ i, i < ts.values.length → g i = ts.values[i]?.map (fun v => After v.stamp t)) →
        Search ts.values.length g = some idx) ∧
      tm.GetBefore k t = .ok (ts.values.take idx) ∧
      ∃ rest, ts.values = ts.values.take idx ++ rest := by
  obtain ⟨idx, h1, h2⟩ := Search_values_total ts.values t
  refine ⟨idx, h1, Nat.zero_le _, h2,
    (searchProbes_bounds _ ts.values.length 0 ts.values.length rfl).1,
    (searchProbes_bounds _ ts.values.length 0 ts.values.length rfl).2,
    ?_, ?_, ts.values.drop idx, (List.take_append_drop idx ts.values).symm⟩
  · intro g hg
    rw [← h1, Search, Search]
    refine searchLoop_congr _ _ ts.values.length 0 _ rfl ?_
    intro i _ hi
    rw [hg i hi]
  · simp [TimeMap.GetBefore, getTimeStore_of_some h, h1, h2]

/-- Witness of C18: a sequence that is not sorted, with records at 5, 1
and 3, and `t = 2`. -/
theorem GetBefore_total_and_prefix_witness :
    (run [⟨"dog", "woof", 5⟩, ⟨"dog", "bark", 1⟩, ⟨"dog", "sigh", 3⟩]).times.lookup "dog"
      = some (storeOf [⟨5, "woof"⟩, ⟨1, "bark"⟩, ⟨3, "sigh"⟩]) ∧
    ∃ idx, idx ≤ 3 ∧
      (run [⟨"dog", "woof", 5⟩, ⟨"dog", "bark", 1⟩, ⟨"dog", "sigh", 3⟩]).GetBefore "dog" 2
        = .ok ((storeOf [⟨5, "woof"⟩, ⟨1, "bark"⟩, ⟨3, "sigh"⟩]).values.take idx) := by
  have h : (run [⟨"dog", "woof", 5⟩, ⟨"dog", "bark", 1⟩,
      ⟨"dog", "sigh", 3⟩]).times.lookup "dog"
      = some (storeOf [⟨5, "woof"⟩, ⟨1, "bark"⟩, ⟨3, "sigh"⟩]) := by
    rw [lookup_run_of_mem _ "dog" ⟨"dog", "woof", 5⟩ (by simp) rfl]
    decide
  obtain ⟨idx, _, _, h3, _, _, _, h5, _⟩ := GetBefore_total_and_prefix _ "dog" _ 2 h
  exact ⟨h, idx, h3, h5⟩

/-! ## The recursion of `Set` -/

theorem SetCounted_of_some (tm : TimeMap) (key data : String) (now : Time) (ts : timeStore)
    (h : tm.times.lookup key = some ts) :
    tm.SetCounted key data now
      = ({ times := tm.times.insert key (ts.push ⟨now, data⟩) }, 0) := by
  rw [TimeMap.SetCounted]
  split
  · rename_i ts' h'
    rw [h] at h'
    cases h'
    rfl
  · rename_i h'
    rw [h] at h'
    cases h'

theorem SetCounted_of_none (tm : TimeMap) (key data : String) (now : Time)
    (h : tm.times.lookup key = none) :
    tm.SetCounted key data now =
      ((TimeMap.SetCounted { times := tm.times.insert key newTimeStore } key data now).1,
        (TimeMap.SetCounted { times := tm.times.insert key newTimeStore } key data now).2
          + 1) := by
  rw [TimeMap.SetCounted]
  split
  · rename_i ts' h'
    rw [h] at h'
    cases h'
  · rfl

/-- C19: `Set` terminates, for every store, key and payload: it makes no call
to itself on a known key and exactly one on an unknown key, so at most one,
because the call on an unknown key first inserts an empty history for the key,
after which the key is known to the call it makes; the store it returns on an
unknown key is the one obtained by inserting an empty history and then
appending the record to it. -/
theorem Set_recurses_at_most_once (tm : TimeMap) (key data : String) (now : Time) :
    (tm.SetCounted key data now).1 = tm.Set key data now ∧
    (tm.SetCounted key data now).2 ≤ 1 ∧
    (∀ ts, tm.times.lookup key = some ts → (tm.SetCounted key data now).2 = 0) ∧
    (tm.times.lookup key = none →
      (tm.SetCounted key data now).2 = 1 ∧
      (tm.times.insert key newTimeStore).lookup key = some newTimeStore ∧
      tm.Set key data now =
        { times := (tm.times.insert key newTimeStore).insert key
            { values := newTimeStore.values ++ [{ stamp := now, val := data }],
              timeIndex := newTimeStore.timeIndex.insert now
                { stamp := now, val := data } } }) := by
  have hins : (tm.times.insert key newTimeStore).lookup key = some newTimeStore :=
    Finmap.lookup_insert _
  cases h : tm.times.lookup key with
  | some ts =>
    rw [SetCounted_of_some tm key data now ts h, Set_of_some tm key data now ts h]
    exact ⟨rfl, Nat.zero_le _, fun _ _ => rfl, fun hn => by cases hn⟩
  | none =>
    rw [SetCounted_of_none tm key data now h,
      SetCounted_of_some { times := tm.times.insert key newTimeStore } key data now
        newTimeStore hins,
      Set_of_none tm key data now h,
      Set_of_some { times := tm.times.insert key newTimeStore } key data now
        newTimeStore hins]
    exact ⟨rfl, le_refl _, fun ts hts => (by cases hts), fun _ => ⟨rfl, hins, rfl⟩⟩

/-! ## Reads on the memory -/

theorem readOnly_pure {α : Type} (a : α) : (Op.pure a).ReadOnly := fun _ => rfl

theorem readOnly_bind {α β : Type} {x : Op α} {f : α → Op β} (hx : x.ReadOnly)
    (hf : ∀ a, (f a).ReadOnly) : (x.bind f).ReadOnly := by
  intro m
  have h1 := hx m
  unfold Op.bind
  cases hxm : x m with
  | mk r m' =>
    rw [hxm] at h1
    cases r with
    | none => exact h1
    | some a =>
      have h2 := hf a m'
      simp only at h1 h2 ⊢
      rw [h2, h1]

theorem readOnly_loadKey (key : String) : (loadKey key).ReadOnly := fun _ => rfl

theorem readOnly_loadValues (ts : Ptr) : (loadValues ts).ReadOnly := fun _ => rfl

theorem readOnly_loadIndexEntry (ts : Ptr) (t : Time) : (loadIndexEntry ts t).ReadOnly :=
  fun _ => rfl

theorem readOnly_sliceIndex (s : Slice) (i : Int) : (sliceIndex s i).ReadOnly := fun _ => rfl

theorem readOnly_loadStamp (v : Ptr) : (loadStamp v).ReadOnly := fun _ => rfl

theorem readOnly_reslice (s : Slice) (idx : Nat) : (reslice s idx).ReadOnly := fun _ => rfl

/-- The search leaves the memory as it finds it when its predicate does. -/
theorem readOnly_searchLoopM (f : Nat → Op Bool) (hf : ∀ k, (f k).ReadOnly) (n : Nat) :
    ∀ i j, j - i = n → (searchLoopM f i j).ReadOnly := by
  induction n using Nat.strong_induction_on with
  | _ n ih =>
    intro i j hn
    rw [searchLoopM]
    by_cases hlt : i < j
    · rw [if_pos hlt]
      refine readOnly_bind (hf _) (fun b => ?_)
      cases b with
      | false => exact ih (j - ((i + j) / 2 + 1)) (by omega) _ j rfl
      | true => exact ih ((i + j) / 2 - i) (by omega) i _ rfl
    · rw [if_neg hlt]
      exact readOnly_pure i

theorem readOnly_getTimeStore (key : String) : (Mem.getTimeStore key).ReadOnly := by
  refine readOnly_bind (readOnly_loadKey key) (fun r => ?_)
  cases r with
  | none => exact readOnly_pure _
  | some ts => exact readOnly_pure _

/-- The body of `Get` is made of reads only. -/
theorem readOnly_Get (key : String) (stamp : List Time) : (Mem.Get key stamp).ReadOnly := by
  refine readOnly_bind (readOnly_getTimeStore key) (fun r => ?_)
  cases r with
  | error e => exact readOnly_pure _
  | ok ts =>
    cases stamp with
    | nil =>
      exact readOnly_bind (readOnly_loadValues ts) (fun vals =>
        readOnly_bind (readOnly_loadValues ts) (fun vs =>
          readOnly_bind (readOnly_sliceIndex _ _) (fun v => readOnly_pure _)))
    | cons lookup rest =>
      refine readOnly_bind (readOnly_loadIndexEntry ts lookup) (fun r => ?_)
      cases r with
      | none => exact readOnly_pure _
      | some v => exact readOnly_pure _

/-- The body of `GetBefore` is made of reads only, the predicate it hands to
`sort.Search` included. -/
theorem readOnly_GetBefore (key : String) (stamp : Time) :
    (Mem.GetBefore key stamp).ReadOnly := by
  refine readOnly_bind (readOnly_getTimeStore key) (fun r => ?_)
  cases r with
  | error e => exact readOnly_pure _
  | ok ts =>
    refine readOnly_bind (readOnly_loadValues ts) (fun vals => ?_)
    refine readOnly_bind ?_ (fun idx => ?_)
    · refine readOnly_searchLoopM _ (fun k => ?_) vals.len 0 vals.len rfl
      exact readOnly_bind (readOnly_loadValues ts) (fun vs =>
        readOnly_bind (readOnly_sliceIndex _ _) (fun v =>
          readOnly_bind (readOnly_loadStamp v) (fun s => readOnly_pure _)))
    · exact readOnly_bind (readOnly_loadValues ts) (fun vs =>
        readOnly_bind (readOnly_reslice vs idx) (fun r => readOnly_pure _))

theorem afterReads_eq (m : Mem) (rs : List Read) : m.afterReads rs = m := by
  induction rs generalizing m with
  | nil => rfl
  | cons r rs ih =>
    have hr : r.after m = m := by
      cases r with
      | get key stamp => exact readOnly_Get key stamp m
      | getBefore key stamp => exact readOnly_GetBefore key stamp m
    show Mem.afterReads (r.after m) rs = m
    rw [hr]
    exact ih m

/-! ## The memory against the store -/

theorem Mem_getTimeStore_of_none {m : Mem} {key : String} (h : m.times.lookup key = none) :
    Mem.getTimeStore key m = (some (.error (.keyNotFound key)), m) := by
  simp [Mem.getTimeStore, Op.bind, loadKey, Op.pure, h]

theorem Mem_getTimeStore_of_some {m : Mem} {key : String} {p : Ptr}
    (h : m.times.lookup key = some p) :
    Mem.getTimeStore key m = (some (.ok p), m) := by
  simp [Mem.getTimeStore, Op.bind, loadKey, Op.pure, h]

/-- The search on the memory computes what the search of the store computes,
when its predicate reads what the predicate of the store reads. -/
theorem searchLoopM_eq (f : Nat → Op Bool) (g : Nat → Option Bool) (m : Mem) (n : Nat)
    (hfg : ∀ k, k < n → f k m = (g k, m)) (d : Nat) :
    ∀ i j, j - i = d → j ≤ n → searchLoopM f i j m = (searchLoop g i j, m) := by
  induction d using Nat.strong_induction_on with
  | _ d ih =>
    intro i j hd hjn
    rw [searchLoopM]
    by_cases hlt : i < j
    · rw [if_pos hlt]
      have hmid := hfg ((i + j) / 2) (by omega)
      unfold Op.bind
      rw [hmid]
      cases hg : g ((i + j) / 2) with
      | none =>
        rw [searchLoop_of_none g i j hlt hg]
      | some b =>
        cases b with
        | false =>
          rw [searchLoop_of_false g i j hlt hg]
          show searchLoopM f ((i + j) / 2 + 1) j m = _
          exact ih (j - ((i + j) / 2 + 1)) (by omega) _ j rfl hjn
        | true =>
          rw [searchLoop_of_true g i j hlt hg]
          show searchLoopM f i ((i + j) / 2) m = _
          exact ih ((i + j) / 2 - i) (by omega) i _ rfl (by omega)
    · rw [if_neg hlt, searchLoop_of_not_lt g i j hlt]
      rfl

/-- `Get` on a memory that holds a store returns what `Get` on the store
returns: the same error, or a pointer to the same record, or both panic. -/
theorem Mem_Get_agrees (m : Mem) (tm : TimeMap) (h : m.Represents tm) (key : String)
    (stamp : List Time) :
    ResultHolds (fun p v => m.cell p = some v) (Mem.Get key stamp m).1 (tm.Get key stamp) := by
  rcases h key with ⟨hm, ht⟩ | ⟨p, o, ts, hm, ho, ht, ⟨hlen, hval⟩, hcap, hidx⟩
  · rw [Get_of_none stamp ht]
    simp [Mem.Get, Op.bind, Mem_getTimeStore_of_none hm, Op.pure, ResultHolds]
  · cases stamp with
    | nil =>
      rw [Get_latest_of_some ht]
      have hG : (Mem.Get key [] m).1
          = ((sliceIndex o.values ((o.values.len : Int) - 1) m).1).map Except.ok := by
        simp only [Mem.Get, Op.bind, Mem_getTimeStore_of_some hm, loadValues, ho, Option.map_some',
          Op.pure]
        cases (sliceIndex o.values ((o.values.len : Int) - 1) m) with
        | mk r m' => cases r <;> rfl
      rw [hG]
      cases hv : ts.values.getLast? with
      | none =>
        have hnil := List.getLast?_eq_none_iff.1 hv
        have h0 : o.values.len = 0 := by rw [hlen, hnil]; rfl
        simp [sliceIndex, h0, ResultHolds]
      | some v =>
        have hne : ts.values ≠ [] := by
          intro hnil
          rw [hnil] at hv
          cases hv
        have hpos : 0 < ts.values.length := List.length_pos.2 hne
        have hv' : ts.values[ts.values.length - 1]? = some v := by
          rw [← hv, List.getLast?_eq_getElem?]
        obtain ⟨arr, q, harr, hq, hcell⟩ := hval _ v hv'
        have hi : ((o.values.len : Int) - 1).toNat = ts.values.length - 1 := by
          rw [hlen]
          omega
        have hrange : 0 ≤ (o.values.len : Int) - 1 ∧ (o.values.len : Int) - 1 < o.values.len := by
          rw [hlen]
          omega
        simp [sliceIndex, hrange, harr, hi, hq, ResultHolds, hcell]
    | cons t rest =>
      rw [Get_stamp_of_some ht]
      rcases hidx t with ⟨h1, h2⟩ | ⟨q, v, h1, h2, h3⟩
      · simp [Mem.Get, Op.bind, Mem_getTimeStore_of_some hm, loadIndexEntry, ho, h1, h2, Op.pure,
          ResultHolds]
      · simp [Mem.Get, Op.bind, Mem_getTimeStore_of_some hm, loadIndexEntry, ho, h1, h2, Op.pure,
          ResultHolds, h3]

theorem bind_of_some {α β : Type} {x : Op α} {f : α → Op β} {m m' : Mem} {a : α}
    (h : x m = (some a, m')) : x.bind f m = f a m' := by
  simp [Op.bind, h]

theorem bind_of_none {α β : Type} {x : Op α} {f : α → Op β} {m m' : Mem}
    (h : x m = (none, m')) : x.bind f m = (none, m') := by
  simp [Op.bind, h]

/-- On a memory that holds a store, the predicate that `GetBefore` hands to
`sort.Search` reads at each index below the length what the predicate on
the store reads. -/
theorem Mem_predicate_eq {m : Mem} {p : Ptr} {o : StoreObj} {vs : List value}
    (ho : m.store p = some o) (hs : m.SliceHolds o.values vs) (stamp : Time) (k : Nat)
    (hk : k < o.values.len) :
    ((loadValues p).bind fun s =>
      (sliceIndex s (k : Int)).bind fun v =>
      (loadStamp v).bind fun st =>
      Op.pure (After st stamp)) m
      = (vs[k]?.map (fun v => After v.stamp stamp), m) := by
  obtain ⟨hlen, hval⟩ := hs
  have hk' : k < vs.length := by rw [← hlen]; exact hk
  obtain ⟨arr, q, harr, hq, hcell⟩ := hval k vs[k] (List.getElem?_eq_getElem hk')
  have h1 : loadValues p m = (some o.values, m) := by simp [loadValues, ho]
  have h2 : sliceIndex o.values (k : Int) m = (some q, m) := by
    simp [sliceIndex, hk, harr, hq]
  have h3 : loadStamp q m = (some vs[k].stamp, m) := by simp [loadStamp, hcell]
  rw [bind_of_some h1, bind_of_some h2, bind_of_some h3, List.getElem?_eq_getElem hk']
  rfl

/-- `GetBefore` on a memory that holds a store returns what `GetBefore` on the
store returns: the same error, or a slice header that holds the same records,
on the backing array of the key's `values` and with its capacity. -/
theorem Mem_GetBefore_agrees (m : Mem) (tm : TimeMap) (h : m.Represents tm) (key : String)
    (stamp : Time) :
    ResultHolds
      (fun s vs => m.SliceHolds s vs ∧
        ∃ p o, m.times.lookup key = some p ∧ m.store p = some o ∧
          s.array = o.values.array ∧ s.cap = o.values.cap)
      (Mem.GetBefore key stamp m).1 (tm.GetBefore key stamp) := by
  rcases h key with ⟨hm, ht⟩ | ⟨p, o, ts, hm, ho, ht, hs, hcap, hidx⟩
  · rw [GetBefore_of_none stamp ht, Mem.GetBefore, bind_of_some (Mem_getTimeStore_of_none hm)]
    simp [Op.pure, ResultHolds]
  · obtain ⟨idx, hS, hle⟩ := Search_values_total ts.values stamp
    have hlen : o.values.len = ts.values.length := hs.1
    have h1 : loadValues p m = (some o.values, m) := by simp [loadValues, ho]
    have hSM : SearchM o.values.len (fun i =>
        (loadValues p).bind fun vs =>
        (sliceIndex vs (i : Int)).bind fun v =>
        (loadStamp v).bind fun s =>
        Op.pure (After s stamp)) m = (some idx, m) := by
      rw [SearchM, searchLoopM_eq _ (fun k => ts.values[k]?.map (fun v => After v.stamp stamp)) m
        o.values.len (fun k hk => Mem_predicate_eq ho hs stamp k hk) o.values.len 0 o.values.len
        rfl (le_refl _), hlen]
      rw [Search] at hS
      rw [hS]
    have h4 : reslice o.values idx m = (some { o.values with len := idx }, m) := by
      have : idx ≤ o.values.cap := by omega
      simp [reslice, this]
    have hG : tm.GetBefore key stamp = .ok (ts.values.take idx) := by
      simp [TimeMap.GetBefore, getTimeStore_of_some ht, hS, hle]
    rw [hG, Mem.GetBefore, bind_of_some (Mem_getTimeStore_of_some hm)]
    simp only []
    rw [bind_of_some h1, bind_of_some hSM, bind_of_some h1, bind_of_some h4]
    refine ⟨⟨?_, ?_⟩, p, o, hm, ho, rfl, rfl⟩
    · simp [List.length_take, hle]
    · intro i v hv
      have hi : i < idx := by
        by_contra hge
        rw [List.getElem?_take_eq_none (by omega)] at hv
        cases hv
      rw [List.getElem?_take, if_pos hi] at hv
      exact hs.2 i v hv

/-! ## `Set` on the memory -/

theorem Mem_Set_of_some (grow : Nat → Nat) (key data : String) (now : Time) (m : Mem)
    (ts : Ptr) (h : m.times.lookup key = some ts) :
    Mem.Set grow key data now m =
      ((allocValue { stamp := now, val := data }).bind fun v =>
        (loadValues ts).bind fun vals =>
        (appendValue grow vals v).bind fun vals' =>
        (storeValues ts vals').bind fun _ =>
        storeIndexEntry ts now v) m := by
  rw [Mem.Set]
  split
  · rename_i ts' h'
    rw [h] at h'
    cases h'
    rfl
  · rename_i h'
    rw [h] at h'
    cases h'

theorem Mem_Set_of_none (grow : Nat → Nat) (key data : String) (now : Time) (m : Mem)
    (h : m.times.lookup key = none) :
    Mem.Set grow key data now m =
      Mem.Set grow key data now
        { m with
          times := m.times.insert key (some m.stores.length)
          stores := m.stores ++
            [{ timeIndex := ∅, values := { array := none, len := 0, cap := 0 } }] } := by
  rw [Mem.Set]
  split
  · rename_i ts' h'
    rw [h] at h'
    cases h'
  · rfl

theorem keepsCells_bind {α β : Type} {x : Op α} {f : α → Op β}
    (hx : ∀ m, (x m).2.cells = m.cells) (hf : ∀ a m, (f a m).2.cells = m.cells) :
    ∀ m, (x.bind f m).2.cells = m.cells := by
  intro m
  have h1 := hx m
  unfold Op.bind
  cases hxm : x m with
  | mk r m' =>
    rw [hxm] at h1
    cases r with
    | none => exact h1
    | some a =>
      have h2 := hf a m'
      simp only at h1 h2 ⊢
      rw [h2, h1]

theorem keepsCells_appendValue (grow : Nat → Nat) (s : Slice) (v : Ptr) :
    ∀ m, (appendValue grow s v m).2.cells = m.cells := by
  intro m
  unfold appendValue
  split
  · split
    · split <;> rfl
    · rfl
  · rfl

theorem keepsCells_storeValues (ts : Ptr) (s : Slice) :
    ∀ m, (storeValues ts s m).2.cells = m.cells := by
  intro m
  unfold storeValues
  split
  · split <;> rfl
  · rfl

theorem keepsCells_storeIndexEntry (ts : Ptr) (t : Time) (v : Ptr) :
    ∀ m, (storeIndexEntry ts t v m).2.cells = m.cells := by
  intro m
  unfold storeIndexEntry
  split
  · split <;> rfl
  · rfl

/-- `Set` writes to the memory: it allocates one `value` object, whatever
else it does; so it never leaves the memory as it finds it. -/
theorem Mem_Set_allocates (grow : Nat → Nat) (key data : String) (now : Time) (m : Mem) :
    (Mem.Set grow key data now m).2.cells.length = m.cells.length + 1 ∧
    (Mem.Set grow key data now m).2 ≠ m := by
  have hknown : ∀ (m : Mem) (ts : Ptr), m.times.lookup key = some ts →
      (Mem.Set grow key data now m).2.cells = m.cells ++ [{ stamp := now, val := data }] := by
    intro m ts h
    rw [Mem_Set_of_some grow key data now m ts h]
    have ha : allocValue { stamp := now, val := data } m
        = (some (some m.cells.length),
            { m with cells := m.cells ++ [{ stamp := now, val := data }] }) := rfl
    rw [bind_of_some ha]
    exact keepsCells_bind (fun _ => rfl) (fun vals =>
      keepsCells_bind (keepsCells_appendValue grow vals _) (fun vals' =>
        keepsCells_bind (keepsCells_storeValues ts vals') (fun _ =>
          keepsCells_storeIndexEntry ts now _))) _
  have hcells : (Mem.Set grow key data now m).2.cells
      = m.cells ++ [{ stamp := now, val := data }] := by
    cases h : m.times.lookup key with
    | some ts => exact hknown m ts h
    | none =>
      rw [Mem_Set_of_none grow key data now m h]
      exact hknown _ (some m.stores.length) (Finmap.lookup_insert _)
  have hlen : (Mem.Set grow key data now m).2.cells.length = m.cells.length + 1 := by
    rw [hcells, List.length_append]
    rfl
  refine ⟨hlen, fun heq => ?_⟩
  rw [heq] at hlen
  omega

/-- Closed form of `Set` on the memory: on a new key the statements of the
known-key branch run on the memory with the new `timeStore`. -/
theorem Mem_Set_eq (grow : Nat → Nat) (key data : String) (now : Time) (m : Mem) :
    Mem.Set grow key data now m =
      match m.times.lookup key with
      | some ts =>
        ((allocValue { stamp := now, val := data }).bind fun v =>
          (loadValues ts).bind fun vals =>
          (appendValue grow vals v).bind fun vals' =>
          (storeValues ts vals').bind fun _ =>
          storeIndexEntry ts now v) m
      | none =>
        ((allocValue { stamp := now, val := data }).bind fun v =>
          (loadValues (some m.stores.length)).bind fun vals =>
          (appendValue grow vals v).bind fun vals' =>
          (storeValues (some m.stores.length) vals').bind fun _ =>
          storeIndexEntry (some m.stores.length) now v)
          { m with
            times := m.times.insert key (some m.stores.length)
            stores := m.stores ++
              [{ timeIndex := ∅, values := { array := none, len := 0, cap := 0 } }] } := by
  cases h : m.times.lookup key with
  | some ts => exact Mem_Set_of_some grow key data now m ts h
  | none =>
    rw [Mem_Set_of_none grow key data now m h]
    exact Mem_Set_of_some grow key data now _ (some m.stores.length) (Finmap.lookup_insert _)

/-- The memory that the four calls of `demoCalls` build is `demoMem`. -/
theorem Mem_run_demo : Mem.run doubling demoCalls = demoMem := by
  simp only [Mem.run, demoCalls, List.foldl, Mem_Set_eq]
  decide

/-! ## The memory holds the store -/

/-- What `append` does, when the slice is within its capacity and has its
backing array: the new header is one longer, within its capacity, on an array
that holds the old elements and then the new one; every other array is as
before; and the array is the old one or a newly allocated one. -/
theorem appendValue_spec (grow : Nat → Nat) (s : Slice) (q : Ptr) (m : Mem)
    (hcap : s.len ≤ s.cap)
    (harr : (s.array = none ∧ s.cap = 0) ∨
      ∃ (b : Nat) (arr : List Ptr),
        s.array = some b ∧ m.arrays[b]? = some arr ∧ arr.length = s.cap) :
    ∃ (s' : Slice) (arrays' : List (List Ptr)) (b' : Nat) (arr' : List Ptr),
      appendValue grow s q m = (some s', { m with arrays := arrays' }) ∧
      s'.len = s.len + 1 ∧ s'.len ≤ s'.cap ∧ s'.array = some b' ∧
      arrays'[b']? = some arr' ∧ arr'.length = s'.cap ∧ arr'[s.len]? = some q ∧
      (∀ (i : Nat) (arr : List Ptr), i < s.len → m.array s.array = some arr →
        arr'[i]? = arr[i]?) ∧
      (∀ c : Nat, s.array ≠ some c → c < m.arrays.length → arrays'[c]? = m.arrays[c]?) ∧
      (s.array = some b' ∨ b' = m.arrays.length) := by
  by_cases hlt : s.len < s.cap
  · rcases harr with ⟨_, h0⟩ | ⟨b, arr, hb, harr, hlen⟩
    · omega
    · have hbl : b < m.arrays.length := by
        rcases Nat.lt_or_ge b m.arrays.length with h | h
        · exact h
        · rw [List.getElem?_eq_none h] at harr
          cases harr
      refine ⟨{ s with len := s.len + 1 }, m.arrays.set b (arr.set s.len q), b,
        arr.set s.len q, ?_, rfl, ?_, hb, ?_, ?_, ?_, ?_, ?_, Or.inl hb⟩
      · simp [appendValue, hlt, hb, harr]
      · show s.len + 1 ≤ s.cap
        omega
      · simp [List.getElem?_set_self, hbl]
      · simp [hlen]
      · simp [List.getElem?_set_self, hlen, hlt]
      · intro i arr0 hi h0
        have : arr0 = arr := by
          rw [hb] at h0
          simp only [Mem.array] at h0
          rw [harr] at h0
          exact (Option.some.inj h0).symm
        subst this
        rw [List.getElem?_set_ne (by omega)]
      · intro c hc _
        rw [List.getElem?_set_ne]
        intro hbc
        exact hc (by rw [hb, hbc])
  · have hlc : s.len = s.cap := by omega
    have hold : (((m.array s.array).getD []).take s.len).length = s.len := by
      rcases harr with ⟨hn, h0⟩ | ⟨b, arr, hb, harr, hlen⟩
      · have : s.len = 0 := by omega
        simp [this]
      · simp [hb, Mem.array, harr, hlen, hlc]
    refine ⟨Slice.mk (some m.arrays.length) (s.len + 1) (max (grow s.cap) (s.len + 1)),
      m.arrays ++ [((m.array s.array).getD []).take s.len ++ [q] ++
        List.replicate (max (grow s.cap) (s.len + 1) - (s.len + 1)) none],
      m.arrays.length,
      ((m.array s.array).getD []).take s.len ++ [q] ++
        List.replicate (max (grow s.cap) (s.len + 1) - (s.len + 1)) none,
      ?_, rfl, ?_, rfl, ?_, ?_, ?_, ?_, ?_, Or.inr rfl⟩
    · simp [appendValue, hlt]
    · show s.len + 1 ≤ max (grow s.cap) (s.len + 1)
      exact le_max_right _ _
    · simp
    · simp only [List.length_append, hold, List.length_singleton, List.length_replicate]
      have : s.len + 1 ≤ max (grow s.cap) (s.len + 1) := le_max_right _ _
      omega
    · rw [List.append_assoc, List.getElem?_append_right (by omega)]
      simp [hold]
    · intro i arr hi harr0
      rw [List.append_assoc, List.getElem?_append_left (by omega)]
      simp [harr0, List.getElem?_take, hi]
    · intro c _ hc
      rw [List.getElem?_append_left hc]

theorem StoreHolds_frame {m m' : Mem} {o : StoreObj} {ts : timeStore}
    (hcell : ∀ p w, m.cell p = some w → m'.cell p = some w)
    (harr : ∀ arr, m.array o.values.array = some arr → m'.array o.values.array = some arr)
    (h : m.StoreHolds o ts) : m'.StoreHolds o ts := by
  obtain ⟨⟨hlen, hval⟩, hcap, hidx⟩ := h
  refine ⟨⟨hlen, fun i v hv => ?_⟩, hcap, fun t => ?_⟩
  · obtain ⟨arr, p, h1, h2, h3⟩ := hval i v hv
    exact ⟨arr, p, harr arr h1, h2, hcell p v h3⟩
  · rcases hidx t with h | ⟨p, v, h1, h2, h3⟩
    · exact Or.inl h
    · exact Or.inr ⟨p, v, h1, h2, hcell p v h3⟩

theorem cell_append {m m' : Mem} {v : value} (hc : m'.cells = m.cells ++ [v]) :
    (∀ p w, m.cell p = some w → m'.cell p = some w) ∧
    m'.cell (some m.cells.length) = some v := by
  constructor
  · intro p w hp
    cases p with
    | none => cases hp
    | some c =>
      simp only [Mem.cell] at hp ⊢
      have hlt : c < m.cells.length := by
        rcases Nat.lt_or_ge c m.cells.length with h | h
        · exact h
        · rw [List.getElem?_eq_none h] at hp
          cases hp
      rw [hc, List.getElem?_append_left hlt]
      exact hp
  · simp [Mem.cell, hc]

theorem store_eq_some {m : Mem} {p : Ptr} {o : StoreObj} (h : m.store p = some o) :
    ∃ a, p = some a ∧ m.stores[a]? = some o ∧ a < m.stores.length := by
  cases p with
  | none => cases h
  | some a =>
    refine ⟨a, rfl, h, ?_⟩
    rcases Nat.lt_or_ge a m.stores.length with hlt | hge
    · exact hlt
    · simp only [Mem.store] at h
      rw [List.getElem?_eq_none hge] at h
      cases h

theorem Mem_Set_known (grow : Nat → Nat) (key data : String) (now : Time) (m : Mem)
    (a : Nat) (o : StoreObj) (hp : m.times.lookup key = some (some a))
    (ho : m.stores[a]? = some o) (s' : Slice) (arrays' : List (List Ptr))
    (happ : appendValue grow o.values (some m.cells.length)
        { m with cells := m.cells ++ [{ stamp := now, val := data }] }
      = (some s', { m with cells := m.cells ++ [{ stamp := now, val := data }],
                           arrays := arrays' })) :
    Mem.Set grow key data now m =
      (some (),
        { times := m.times
          stores := m.stores.set a
            { timeIndex := o.timeIndex.insert now (some m.cells.length), values := s' }
          arrays := arrays'
          cells := m.cells ++ [{ stamp := now, val := data }] }) := by
  have hlt : a < m.stores.length := by
    rcases Nat.lt_or_ge a m.stores.length with hlt | hge
    · exact hlt
    · rw [List.getElem?_eq_none hge] at ho
      cases ho
  have h0 : allocValue { stamp := now, val := data } m
      = (some (some m.cells.length),
          { m with cells := m.cells ++ [{ stamp := now, val := data }] }) := rfl
  have h1 : loadValues (some a) { m with cells := m.cells ++ [{ stamp := now, val := data }] }
      = (some o.values, { m with cells := m.cells ++ [{ stamp := now, val := data }] }) := by
    simp [loadValues, Mem.store, ho]
  rw [Mem_Set_of_some grow key data now m (some a) hp, bind_of_some h0, bind_of_some h1,
    bind_of_some happ]
  simp [Op.bind, storeValues, storeIndexEntry, ho, hlt]

theorem getElem?_lt_length {α : Type} {l : List α} {i : Nat} {x : α} (h : l[i]? = some x) :
    i < l.length := by
  rcases Nat.lt_or_ge i l.length with hlt | hge
  · exact hlt
  · rw [List.getElem?_eq_none hge] at h
    cases h

theorem Set_known_preserves (grow : Nat → Nat) (key data : String) (now : Time) (m : Mem)
    (tm : TimeMap) (hR : m.Represents tm) (hW : m.WellFormed) (p : Ptr)
    (hp : m.times.lookup key = some p) :
    (Mem.Set grow key data now m).1 = some () ∧
    (Mem.Set grow key data now m).2.Represents (tm.Set key data now) ∧
    (Mem.Set grow key data now m).2.WellFormed := by
  obtain ⟨hinj, harrs, hown⟩ := hW
  rcases hR key with ⟨hn, _⟩ | ⟨p', o, ts, hp', ho, ht, hSH⟩
  · rw [hp] at hn
    cases hn
  have hpp : p' = p := by
    rw [hp] at hp'
    exact (Option.some.inj hp').symm
  subst hpp
  obtain ⟨a, rfl, hoa, hlt⟩ := store_eq_some ho
  have hcapo := hSH.2.1
  have harro := harrs key (some a) o hp ho
  obtain ⟨s', arrays', b', arr', happ, hlen', hcap', hb', harr', halen', hq, hold, hframe,
      hfresh⟩ :=
    appendValue_spec grow o.values (some m.cells.length)
      { m with cells := m.cells ++ [{ stamp := now, val := data }] } hcapo harro
  have hSet := Mem_Set_known grow key data now m a o hp hoa s' arrays' happ
  have hM : ∃ M : Mem, Mem.Set grow key data now m = (some (), M) ∧ M.times = m.times ∧
      M.stores = m.stores.set a
        { timeIndex := o.timeIndex.insert now (some m.cells.length), values := s' } ∧
      M.arrays = arrays' ∧ M.cells = m.cells ++ [{ stamp := now, val := data }] :=
    ⟨_, hSet, rfl, rfl, rfl, rfl⟩
  obtain ⟨M, hMeq, hMt, hMs, hMa, hMc⟩ := hM
  rw [hMeq]
  obtain ⟨hcellold, hcellnew⟩ := cell_append hMc
  have hstore_self : M.store (some a)
      = some { timeIndex := o.timeIndex.insert now (some m.cells.length), values := s' } := by
    simp [Mem.store, hMs, hlt]
  have hstore_other : ∀ c : Nat, c ≠ a → M.store (some c) = m.store (some c) := by
    intro c hc
    simp only [Mem.store, hMs]
    exact List.getElem?_set_ne (Ne.symm hc)
  have harr_self : M.array s'.array = some arr' := by
    rw [hb']
    simp only [Mem.array, hMa]
    exact harr'
  -- the object of another key: untouched, and so is its backing array
  have hother : ∀ k pk ok, k ≠ key → m.times.lookup k = some pk → m.store pk = some ok →
      M.store pk = some ok ∧
      ∀ arr, m.array ok.values.array = some arr → M.array ok.values.array = some arr := by
    intro k pk ok hk hpk hok
    obtain ⟨ak, rfl, hoak, _⟩ := store_eq_some hok
    have hne : ak ≠ a := by
      intro e
      subst e
      exact hk (hinj k key (some ak) hpk hp)
    refine ⟨by rw [hstore_other ak hne]; exact hok, fun arr harr => ?_⟩
    cases hc : ok.values.array with
    | none =>
      rw [hc] at harr
      cases harr
    | some c =>
      rw [hc] at harr
      simp only [Mem.array] at harr ⊢
      rw [hMa, hframe c ?_ (getElem?_lt_length harr)]
      · exact harr
      · intro hoc
        exact hk (hown k key (some ak) (some a) ok o c hpk hok hp ho hc hoc)
  refine ⟨rfl, ?_, ?_, ?_, ?_⟩
  · -- the memory holds the new store
    intro k
    by_cases hk : k = key
    · subst hk
      refine Or.inr ⟨some a, _, ts.push { stamp := now, val := data }, by rw [hMt]; exact hp,
        hstore_self, by rw [lookup_Set_self, ht]; rfl, ⟨?_, ?_⟩, hcap', ?_⟩
      · show s'.len = (ts.values ++ [_]).length
        rw [hlen', hSH.1.1, List.length_append]
        rfl
      · intro i w hw
        have hw' : (ts.values ++ [({ stamp := now, val := data } : value)])[i]? = some w := hw
        by_cases hi : i < ts.values.length
        · rw [List.getElem?_append_left hi] at hw'
          obtain ⟨arr, p0, h1, h2, h3⟩ := hSH.1.2 i w hw'
          refine ⟨arr', p0, harr_self, ?_, hcellold p0 w h3⟩
          rw [hold i arr (by rw [hSH.1.1]; exact hi) h1]
          exact h2
        · rw [List.getElem?_append_right (by omega)] at hw'
          have hi0 : i - ts.values.length = 0 := by
            rcases Nat.eq_zero_or_pos (i - ts.values.length) with h | h
            · exact h
            · rw [List.getElem?_eq_none (by simp only [List.length_singleton]; omega)] at hw'
              cases hw'
          rw [hi0] at hw'
          have hwv : w = { stamp := now, val := data } := by
            simpa using hw'.symm
          have hil : i = o.values.len := by
            rw [hSH.1.1]
            omega
          subst hwv
          refine ⟨arr', some m.cells.length, harr_self, ?_, hcellnew⟩
          rw [hil]
          exact hq
      · intro t
        by_cases htn : t = now
        · subst htn
          exact Or.inr ⟨some m.cells.length, { stamp := t, val := data },
            Finmap.lookup_insert _, Finmap.lookup_insert _, hcellnew⟩
        · rcases hSH.2.2 t with ⟨h1, h2⟩ | ⟨p0, w, h1, h2, h3⟩
          · refine Or.inl ⟨?_, ?_⟩
            · rw [Finmap.lookup_insert_of_ne _ htn]
              exact h1
            · show ((ts.timeIndex.insert now _).lookup t) = none
              rw [Finmap.lookup_insert_of_ne _ htn]
              exact h2
          · refine Or.inr ⟨p0, w, ?_, ?_, hcellold p0 w h3⟩
            · rw [Finmap.lookup_insert_of_ne _ htn]
              exact h1
            · show ((ts.timeIndex.insert now _).lookup t) = some w
              rw [Finmap.lookup_insert_of_ne _ htn]
              exact h2
    · rw [lookup_Set_of_ne tm key data now k hk, hMt]
      rcases hR k with h | ⟨pk, ok, tsk, hpk, hok, htk, hSHk⟩
      · exact Or.inl h
      · obtain ⟨h1, h2⟩ := hother k pk ok hk hpk hok
        exact Or.inr ⟨pk, ok, tsk, hpk, h1, htk, StoreHolds_frame hcellold h2 hSHk⟩
  · rw [hMt]
    exact hinj
  · -- every slice has its backing array
    intro k pk ok hpk hok
    rw [hMt] at hpk
    by_cases hk : k = key
    · subst hk
      rw [hp] at hpk
      cases hpk
      rw [hstore_self] at hok
      cases hok
      refine Or.inr ⟨b', arr', hb', ?_, halen'⟩
      rw [hMa]
      exact harr'
    · rcases hR k with ⟨hn, _⟩ | ⟨pk', ok', tsk, hpk', hok', _, _⟩
      · rw [hpk] at hn
        cases hn
      · rw [hpk] at hpk'
        cases hpk'
        obtain ⟨h1, h2⟩ := hother k pk ok' hk hpk hok'
        rw [h1] at hok
        have e : ok' = ok := Option.some.inj hok
        rw [← e]
        rcases harrs k pk ok' hpk hok' with h | ⟨b, arr, hb, harr, hl⟩
        · exact Or.inl h
        · refine Or.inr ⟨b, arr, hb, ?_, hl⟩
          have := h2 arr (by rw [hb]; exact harr)
          rw [hb] at this
          exact this
  · -- no two keys share a backing array
    have hkey_other : ∀ k2 p2 o2 (b : Nat), k2 ≠ key → m.times.lookup k2 = some p2 →
        m.store p2 = some o2 → s'.array = some b → o2.values.array = some b → False := by
      intro k2 p2 o2 b hk2 hp2 ho2 hsb hob
      rw [hb'] at hsb
      cases hsb
      rcases hfresh with h | h
      · exact hk2 (hown k2 key p2 (some a) o2 o b' hp2 ho2 hp ho hob h)
      · rcases harrs k2 p2 o2 hp2 ho2 with ⟨hn, _⟩ | ⟨b, arr, hb, harr, _⟩
        · rw [hn] at hob
          cases hob
        · rw [hob] at hb
          cases hb
          have h3 := getElem?_lt_length harr
          have h4 : b' = m.arrays.length := h
          omega
    have hold_obj : ∀ k pk ok, k ≠ key → M.times.lookup k = some pk → M.store pk = some ok →
        m.times.lookup k = some pk ∧ m.store pk = some ok := by
      intro k pk ok hk hpk hok
      rw [hMt] at hpk
      rcases hR k with ⟨hn, _⟩ | ⟨pk', ok', tsk, hpk', hok', _, _⟩
      · rw [hpk] at hn
        cases hn
      · rw [hpk] at hpk'
        cases hpk'
        obtain ⟨h1, _⟩ := hother k pk ok' hk hpk hok'
        rw [h1] at hok
        have e : ok' = ok := Option.some.inj hok
        rw [← e]
        exact ⟨hpk, hok'⟩
    have hnew_obj : ∀ pk ok, M.times.lookup key = some pk → M.store pk = some ok →
        ok.values = s' := by
      intro pk ok hpk hok
      rw [hMt, hp] at hpk
      cases hpk
      rw [hstore_self] at hok
      cases hok
      rfl
    intro k1 k2 p1 p2 o1 o2 b h1 h1' h2 h2' hb1 hb2
    by_cases hk1 : k1 = key
    · by_cases hk2 : k2 = key
      · rw [hk1, hk2]
      · exfalso
        subst hk1
        obtain ⟨g1, g2⟩ := hold_obj k2 p2 o2 hk2 h2 h2'
        have := hnew_obj p1 o1 h1 h1'
        rw [this] at hb1
        exact hkey_other k2 p2 o2 b hk2 g1 g2 hb1 hb2
    · by_cases hk2 : k2 = key
      · exfalso
        subst hk2
        obtain ⟨g1, g2⟩ := hold_obj k1 p1 o1 hk1 h1 h1'
        have := hnew_obj p2 o2 h2 h2'
        rw [this] at hb2
        exact hkey_other k1 p1 o1 b hk1 g1 g2 hb2 hb1
      · obtain ⟨g1, g2⟩ := hold_obj k1 p1 o1 hk1 h1 h1'
        obtain ⟨g3, g4⟩ := hold_obj k2 p2 o2 hk2 h2 h2'
        exact hown k1 k2 p1 p2 o1 o2 b g1 g2 g3 g4 hb1 hb2

theorem new_key_preserves (m : Mem) (tm : TimeMap) (hR : m.Represents tm)
    (hW : m.WellFormed) (key : String) (hn : m.times.lookup key = none) :
    Mem.Represents
      { m with
        times := m.times.insert key (some m.stores.length)
        stores := m.stores ++
          [{ timeIndex := ∅, values := { array := none, len := 0, cap := 0 } }] }
      { times := tm.times.insert key newTimeStore } ∧
    Mem.WellFormed
      { m with
        times := m.times.insert key (some m.stores.length)
        stores := m.stores ++
          [{ timeIndex := ∅, values := { array := none, len := 0, cap := 0 } }] } := by
  obtain ⟨hinj, harrs, hown⟩ := hW
  -- an object that a key of `m` points to is the same object in the new memory
  have hkeep : ∀ k pk, m.times.lookup k = some pk →
      ∃ ok, m.store pk = some ok ∧
        Mem.store { m with
          times := m.times.insert key (some m.stores.length)
          stores := m.stores ++
            [{ timeIndex := ∅, values := { array := none, len := 0, cap := 0 } }] } pk
          = some ok ∧ pk ≠ some m.stores.length := by
    intro k pk hpk
    rcases hR k with ⟨h, _⟩ | ⟨pk', ok, tsk, hpk', hok, _, _⟩
    · rw [hpk] at h
      cases h
    · rw [hpk] at hpk'
      have e : pk = pk' := Option.some.inj hpk'
      rw [e]
      obtain ⟨ak, rfl, hoak, hlt⟩ := store_eq_some hok
      refine ⟨ok, hok, ?_, ?_⟩
      · simp only [Mem.store]
        rw [List.getElem?_append_left hlt]
        exact hoak
      · intro h
        have := Option.some.inj h
        omega
  have hnew : Mem.store { m with
        times := m.times.insert key (some m.stores.length)
        stores := m.stores ++
          [{ timeIndex := ∅, values := { array := none, len := 0, cap := 0 } }] }
        (some m.stores.length)
      = some { timeIndex := ∅, values := { array := none, len := 0, cap := 0 } } := by
    simp [Mem.store]
  refine ⟨?_, ?_, ?_, ?_⟩
  · intro k
    by_cases hk : k = key
    · subst hk
      refine Or.inr ⟨some m.stores.length, _, newTimeStore, Finmap.lookup_insert _, hnew,
        Finmap.lookup_insert _, ⟨rfl, fun i v hv => ?_⟩, le_refl _, fun t => Or.inl ⟨?_, ?_⟩⟩
      · simp [newTimeStore] at hv
      · exact Finmap.lookup_empty t
      · exact Finmap.lookup_empty t
    · show (Finmap.lookup k (m.times.insert key (some m.stores.length)) = none ∧
          Finmap.lookup k (tm.times.insert key newTimeStore) = none) ∨ _
      rw [Finmap.lookup_insert_of_ne _ hk, Finmap.lookup_insert_of_ne _ hk]
      rcases hR k with h | ⟨pk, ok, tsk, hpk, hok, htk, hSH⟩
      · exact Or.inl h
      · obtain ⟨ok', h1, h2, _⟩ := hkeep k pk hpk
        rw [hok] at h1
        have e : ok = ok' := Option.some.inj h1
        rw [← e] at h2
        exact Or.inr ⟨pk, ok, tsk, hpk, h2, htk,
          StoreHolds_frame (fun _ _ h => h) (fun _ h => h) hSH⟩
  · intro k1 k2 p h1 h2
    have h1' : Finmap.lookup k1 (m.times.insert key (some m.stores.length)) = some p := h1
    have h2' : Finmap.lookup k2 (m.times.insert key (some m.stores.length)) = some p := h2
    by_cases hk1 : k1 = key
    · by_cases hk2 : k2 = key
      · rw [hk1, hk2]
      · exfalso
        subst hk1
        rw [Finmap.lookup_insert] at h1'
        rw [Finmap.lookup_insert_of_ne _ hk2] at h2'
        obtain ⟨_, _, _, hne⟩ := hkeep k2 p h2'
        exact hne (Option.some.inj h1').symm
    · by_cases hk2 : k2 = key
      · exfalso
        subst hk2
        rw [Finmap.lookup_insert] at h2'
        rw [Finmap.lookup_insert_of_ne _ hk1] at h1'
        obtain ⟨_, _, _, hne⟩ := hkeep k1 p h1'
        exact hne (Option.some.inj h2').symm
      · rw [Finmap.lookup_insert_of_ne _ hk1] at h1'
        rw [Finmap.lookup_insert_of_ne _ hk2] at h2'
        exact hinj k1 k2 p h1' h2'
  · intro k pk ok hpk hok
    have hpk' : Finmap.lookup k (m.times.insert key (some m.stores.length)) = some pk := hpk
    by_cases hk : k = key
    · subst hk
      rw [Finmap.lookup_insert] at hpk'
      have e := Option.some.inj hpk'
      rw [← e, hnew] at hok
      have e2 := Option.some.inj hok
      rw [← e2]
      exact Or.inl ⟨rfl, rfl⟩
    · rw [Finmap.lookup_insert_of_ne _ hk] at hpk'
      obtain ⟨ok', g1, g2, _⟩ := hkeep k pk hpk'
      rw [g2] at hok
      have e := Option.some.inj hok
      rw [← e]
      exact harrs k pk ok' hpk' g1
  · intro k1 k2 p1 p2 o1 o2 b h1 h1' h2 h2' hb1 hb2
    have g1 : Finmap.lookup k1 (m.times.insert key (some m.stores.length)) = some p1 := h1
    have g2 : Finmap.lookup k2 (m.times.insert key (some m.stores.length)) = some p2 := h2
    have hempty : ∀ k pk ok (b : Nat), k = key →
        Finmap.lookup k (m.times.insert key (some m.stores.length)) = some pk →
        Mem.store { m with
          times := m.times.insert key (some m.stores.length)
          stores := m.stores ++
            [{ timeIndex := ∅, values := { array := none, len := 0, cap := 0 } }] } pk
          = some ok → ok.values.array = some b → False := by
      intro k pk ok b hk hpk hok hb
      subst hk
      rw [Finmap.lookup_insert] at hpk
      have e := Option.some.inj hpk
      rw [← e, hnew] at hok
      have e2 := Option.some.inj hok
      rw [← e2] at hb
      cases hb
    by_cases hk1 : k1 = key
    · exact absurd (hempty k1 p1 o1 b hk1 g1 h1' hb1) id
    · by_cases hk2 : k2 = key
      · exact absurd (hempty k2 p2 o2 b hk2 g2 h2' hb2) id
      · rw [Finmap.lookup_insert_of_ne _ hk1] at g1
        rw [Finmap.lookup_insert_of_ne _ hk2] at g2
        obtain ⟨o1', a1, a2, _⟩ := hkeep k1 p1 g1
        obtain ⟨o2', a3, a4, _⟩ := hkeep k2 p2 g2
        rw [a2] at h1'
        rw [a4] at h2'
        have e1 := Option.some.inj h1'
        have e2 := Option.some.inj h2'
        rw [← e1] at hb1
        rw [← e2] at hb2
        exact hown k1 k2 p1 p2 o1' o2' b g1 a1 g2 a3 hb1 hb2

/-- `Set` on a memory that holds a store leaves a memory that holds the store
that `Set` on the store returns, and it does not panic. -/
theorem Set_preserves (grow : Nat → Nat) (key data : String) (now : Time) (m : Mem)
    (tm : TimeMap) (hR : m.Represents tm) (hW : m.WellFormed) :
    (Mem.Set grow key data now m).1 = some () ∧
    (Mem.Set grow key data now m).2.Represents (tm.Set key data now) ∧
    (Mem.Set grow key data now m).2.WellFormed := by
  cases hp : m.times.lookup key with
  | some p => exact Set_known_preserves grow key data now m tm hR hW p hp
  | none =>
    have ht : tm.times.lookup key = none := by
      rcases hR key with ⟨_, h⟩ | ⟨p, _, _, h, _⟩
      · exact h
      · rw [hp] at h
        cases h
    obtain ⟨hR', hW'⟩ := new_key_preserves m tm hR hW key hp
    rw [Mem_Set_of_none grow key data now m hp, Set_of_none tm key data now ht]
    exact Set_known_preserves grow key data now _ _ hR' hW' (some m.stores.length)
      (Finmap.lookup_insert _)

theorem Mem_run_snoc (grow : Nat → Nat) (ops : List SetCall) (c : SetCall) :
    Mem.run grow (ops ++ [c]) = (Mem.Set grow c.key c.data c.now (Mem.run grow ops)).2 := by
  simp [Mem.run, List.foldl_append]

/-- The memory that a sequence of `Set` calls builds from `New()` holds the
store that the same calls build, whatever the growth policy of `append`. -/
theorem Mem_run_represents (grow : Nat → Nat) (ops : List SetCall) :
    (Mem.run grow ops).Represents (run ops) ∧ (Mem.run grow ops).WellFormed := by
  induction ops using List.reverseRecOn with
  | nil =>
    refine ⟨fun k => Or.inl ⟨Finmap.lookup_empty k, Finmap.lookup_empty k⟩, ?_, ?_, ?_⟩
    · intro k1 k2 p h
      rw [show (Mem.run grow []).times.lookup k1 = none from Finmap.lookup_empty k1] at h
      cases h
    · intro k p o h
      rw [show (Mem.run grow []).times.lookup k = none from Finmap.lookup_empty k] at h
      cases h
    · intro k1 k2 p1 p2 o1 o2 b h
      rw [show (Mem.run grow []).times.lookup k1 = none from Finmap.lookup_empty k1] at h
      cases h
  | append_singleton ops c ih =>
    rw [Mem_run_snoc, run_snoc]
    exact (Set_preserves grow c.key c.data c.now _ _ ih.1 ih.2).2

/-- The memory `demoMem` holds the store that `demoCalls` build. -/
theorem demoMem_represents : demoMem.Represents (run demoCalls) := by
  rw [← Mem_run_demo]
  exact (Mem_run_represents doubling demoCalls).1

/-- C11: a read, `Get` or `GetBefore`, on any memory and with any arguments,
whether it succeeds, fails with an error or panics, leaves the memory as it
was: the map from keys to histories, the slice, backing array and index of
every key, and every stored value. So the same read, repeated at once or
after any number of other reads, with nothing but reads in between, returns
the identical result; and a memory that holds a store holds the same store
after the read, the read having returned what the read on that store returns
(for `GetBefore`, a header on the backing array of the key's own slice). -/
theorem reads_leave_memory_unchanged (m : Mem) (key : String) (stamp : List Time) (t : Time) :
    (Mem.Get key stamp m).2 = m ∧
    (Mem.GetBefore key t m).2 = m ∧
    (Mem.Get key stamp (Mem.Get key stamp m).2).1 = (Mem.Get key stamp m).1 ∧
    (Mem.GetBefore key t (Mem.GetBefore key t m).2).1 = (Mem.GetBefore key t m).1 ∧
    (∀ rs : List Read,
      m.afterReads rs = m ∧
      (Mem.Get key stamp (m.afterReads rs)).1 = (Mem.Get key stamp m).1 ∧
      (Mem.GetBefore key t (m.afterReads rs)).1 = (Mem.GetBefore key t m).1) ∧
    (∀ tm : TimeMap, m.Represents tm →
      (Mem.Get key stamp m).2.Represents tm ∧ (Mem.GetBefore key t m).2.Represents tm ∧
      ResultHolds (fun p v => m.cell p = some v) (Mem.Get key stamp m).1 (tm.Get key stamp) ∧
      ResultHolds
        (fun s vs => m.SliceHolds s vs ∧
          ∃ p o, m.times.lookup key = some p ∧ m.store p = some o ∧
            s.array = o.values.array ∧ s.cap = o.values.cap)
        (Mem.GetBefore key t m).1 (tm.GetBefore key t)) := by
  have h1 := readOnly_Get key stamp m
  have h2 := readOnly_GetBefore key t m
  refine ⟨h1, h2, by rw [h1], by rw [h2], fun rs => ?_, fun tm htm => ?_⟩
  · rw [afterReads_eq m rs]
    exact ⟨rfl, rfl, rfl⟩
  · rw [h1, h2]
    exact ⟨htm, htm, Mem_Get_agrees m tm htm key stamp, Mem_GetBefore_agrees m tm htm key t⟩

/-- Witness of C11: the memory that four `Set` calls on two keys build from
`New()`, which holds the store those calls build. On it `Get("dog")` returns
the pointer to the last value of `"dog"`, `GetBefore("dog", 2)` returns a
header of length 2 on the backing array of `"dog"`, `Get("bird")` fails, and
each of them leaves that memory as it was. -/
theorem reads_leave_memory_unchanged_witness :
    Mem.run doubling demoCalls = demoMem ∧
    demoMem.Represents (run demoCalls) ∧
    Mem.Get "dog" [] demoMem = (some (.ok (some 3)), demoMem) ∧
    Mem.GetBefore "dog" 2 demoMem
      = (some (.ok { array := some 3, len := 2, cap := 4 }), demoMem) ∧
    Mem.Get "bird" [] demoMem = (some (.error (.keyNotFound "bird")), demoMem) := by
  have hdog : demoMem.times.lookup "dog" = some (some 0) := by decide
  have hm := reads_leave_memory_unchanged demoMem "dog" [] 2
  have hb := reads_leave_memory_unchanged demoMem "bird" [] 2
  refine ⟨Mem_run_demo, demoMem_represents, Prod.ext ?_ hm.1, Prod.ext ?_ hm.2.1,
    Prod.ext ?_ hb.1⟩
  · rfl
  · have h1 : loadValues (some 0) demoMem
        = (some { array := some 3, len := 3, cap := 4 }, demoMem) := rfl
    have hS : SearchM 3 (fun i =>
        (loadValues (some 0)).bind fun vs =>
        (sliceIndex vs (i : Int)).bind fun v =>
        (loadStamp v).bind fun s =>
        Op.pure (After s 2)) demoMem = (some 2, demoMem) := by
      rw [SearchM, searchLoopM_eq _
        (fun k => ([⟨1, "woof"⟩, ⟨2, "bark"⟩, ⟨4, "sigh"⟩] : List value)[k]?.map
          (fun v => After v.stamp 2)) demoMem 3 ?_ 3 0 3 rfl (le_refl _)]
      · simp [searchLoop, After]
      · intro k hk
        match k with
        | 0 => rfl
        | 1 => rfl
        | 2 => rfl
        | k + 3 => omega
    rw [Mem.GetBefore, bind_of_some (Mem_getTimeStore_of_some hdog)]
    simp only []
    rw [bind_of_some h1, bind_of_some hS, bind_of_some h1]
    rfl
  · rfl

/-- What a read does not do, a caller can do afterwards: the header that
`GetBefore("dog", 2)` returns on `demoMem` is on the backing array of `"dog"`
and has room in its capacity, so an `append` by the caller to that header
writes slot 2 of that array, where the store keeps its third record, and
`Get("dog")` then returns the appended pointer. The write is the caller's
`append`, made after the read has returned; no method of the store makes
it. -/
theorem append_on_returned_header_writes_store_array :
    demoMem.arrays[3]? = some [some 0, some 1, some 3, none] ∧
    (appendValue doubling { array := some 3, len := 2, cap := 4 } (some 0) demoMem).2.arrays[3]?
      = some [some 0, some 1, some 0, none] ∧
    (Mem.Get "dog" []
        (appendValue doubling { array := some 3, len := 2, cap := 4 } (some 0) demoMem).2).1
      = some (.ok (some 0)) := by
  refine ⟨by decide, by decide, rfl⟩

end TimeBasedKV
